import Mathlib

/-!
# Verification of the DyorScan code-analyzer core

A shallow embedding, in Lean 4, of the code-analyzer pipeline of this
repository: the GitHub tree acquisition helpers, the batched content
fetcher, the relevance selector, the token-budgeted context assembler,
the regular-expression security scanner, and the streaming scan/chat
route handlers.  Effectful calls (GitHub API, OpenAI API) are modelled
by explicit oracle parameters describing their observable outcomes;
everything else is translated directly from the JavaScript source.

Sections are organised per source file:
* `JsStr`     — character-level models of the JavaScript string
                operations the sources use (`split`, `toLowerCase`,
                `includes`, `substring(lastIndexOf('.'))`).
* `Rx`        — a small backtracking regular-expression engine whose
                match-priority order follows the JavaScript one; the
                fixed detector regexes are written as `Rx.Reg` values.
* `Security`  — `src/lib/code-analyzer/security.js`.
* `Gh`        — the octokit helper module (tree building, rendering,
                batched fetching).
* `Ai`        — the OpenAI helper module (`analyzeFileSelection`).
* `Tokens`    — the token-estimation module (`buildContextWithLimit`).
* `ScanRoute` — `api/code-analyzer/scan` (SSE scan handler).
* `ChatRoute` — `api/code-analyzer/chat` (SSE chat handler).
* `FetchRoute`— `api/code-analyzer/fetch` (tree building).

The theorems at the end settle the behavioural claims about these
functions.
-/

namespace JsStr

/-- JavaScript `String.prototype.split("\n")`, on character lists:
splitting an empty string yields one empty piece, and every newline
separates two pieces (so a trailing newline yields a final empty
piece), exactly as in JavaScript. -/
def splitNl : List Char → List (List Char)
  | [] => [[]]
  | c :: rest =>
    if c = '\n' then [] :: splitNl rest
    else
      match splitNl rest with
      | [] => [[c]]
      | l :: ls => (c :: l) :: ls

/-- `splitNl` never returns an empty list of pieces. -/
theorem splitNl_ne_nil (cs : List Char) : splitNl cs ≠ [] := by
  induction cs with
  | nil => simp [splitNl]
  | cons c rest ih =>
    simp only [splitNl]
    split
    · simp
    · cases h : splitNl rest <;> simp

/-- JavaScript `String.prototype.toLowerCase`, restricted to the ASCII
range (all strings compared in the sources are ASCII). -/
def lowerChar (c : Char) : Char :=
  if 'A' ≤ c ∧ c ≤ 'Z' then Char.ofNat (c.toNat + 32) else c

def lower (cs : List Char) : List Char := cs.map lowerChar

/-- JavaScript `haystack.includes(needle)`: `needle` occurs as a
contiguous substring of `haystack`. -/
def includes (hay needle : List Char) : Bool :=
  (List.range (hay.length + 1)).any fun i => needle.isPrefixOf (hay.drop i)

/-- The suffix of `cs` starting at the last `'.'`, if any: the
character-level core of `path.substring(path.lastIndexOf("."))`. -/
def lastDotSuffix : List Char → Option (List Char)
  | [] => none
  | c :: rest =>
    match lastDotSuffix rest with
    | some s => some s
    | none => if c = '.' then some (c :: rest) else none

/-- JavaScript `path.substring(path.lastIndexOf(".")).toLowerCase()`:
when the path has no dot, `lastIndexOf` is `-1` and `substring(-1)`
clamps to the whole string. -/
def extOf (p : String) : String :=
  match lastDotSuffix p.data with
  | some s => String.mk (lower s)
  | none => String.mk (lower p.data)

end JsStr

/-! ## Shared record shapes

`FileRec` is the per-path record produced by the batched fetchers
(`{path, content, size?, sha?, error?}` in the JavaScript sources;
fields a given code path does not set are `none`). -/

structure FileRec where
  path : String
  content : Option String
  size : Option Nat := none
  sha : Option String := none
  error : Option String := none
  deriving Repr, DecidableEq

/-- One security finding as produced by the scan route
(`api/code-analyzer/scan`): `{id, file, line, type, severity, title,
description, fix, confidence, source}`. -/
structure Finding where
  id : String
  file : String
  line : Nat
  type : String
  severity : String
  title : String
  description : String
  fix : String
  confidence : String
  source : String
  deriving Repr, DecidableEq

/-! ## Generic first-occurrence deduplication

Both `deduplicateFindings` (scan route) and the dedup pass inside
`scanFiles` (security.js) filter a list with a `Set` of already-seen
string keys; `dedupByKey` is that shared shape, with the growing `Set`
made explicit. -/

def dedupByKey (key : α → String) : List String → List α → List α
  | _, [] => []
  | seen, f :: rest =>
    if key f ∈ seen then dedupByKey key seen rest
    else f :: dedupByKey key (key f :: seen) rest

theorem dedupByKey_sublist (key : α → String) (seen : List String) (l : List α) :
    (dedupByKey key seen l).Sublist l := by
  induction l generalizing seen with
  | nil => simp [dedupByKey]
  | cons f rest ih =>
    simp only [dedupByKey]
    split
    · exact (ih seen).cons f
    · exact (ih (key f :: seen)).cons₂ f

theorem mem_dedupByKey_key_not_seen (key : α → String) (seen : List String)
    (l : List α) (f : α) (hf : f ∈ dedupByKey key seen l) : key f ∉ seen := by
  induction l generalizing seen with
  | nil => simp [dedupByKey] at hf
  | cons g rest ih =>
    simp only [dedupByKey] at hf
    split at hf
    · exact ih seen hf
    · rcases List.mem_cons.1 hf with rfl | hmem
      · assumption
      · intro hk
        exact ih (key g :: seen) hmem (List.mem_cons_of_mem _ hk)

/-- Every key present in the input is represented in the output (unless
it was already seen). -/
theorem dedupByKey_covers (key : α → String) (seen : List String) (l : List α)
    (f : α) (hf : f ∈ l) (hns : key f ∉ seen) :
    ∃ g ∈ dedupByKey key seen l, key g = key f := by
  induction l generalizing seen with
  | nil => simp at hf
  | cons g rest ih =>
    rcases List.mem_cons.1 hf with rfl | hmem
    · rw [dedupByKey, if_neg hns]
      exact ⟨f, List.mem_cons_self f _, rfl⟩
    · by_cases hk : key g ∈ seen
      · rw [dedupByKey, if_pos hk]
        exact ih seen hmem hns
      · rw [dedupByKey, if_neg hk]
        by_cases heq : key f = key g
        · exact ⟨g, List.mem_cons_self g _, heq.symm⟩
        · obtain ⟨g', hg', hkey⟩ :=
            ih (key g :: seen) hmem (by simp [hns, heq])
          exact ⟨g', List.mem_cons_of_mem _ hg', hkey⟩

/-- The element kept for a key is the first occurrence of that key: any
earlier list element with the same key as a kept element is that
element itself. -/
theorem dedupByKey_first (key : α → String) (seen : List String) (l : List α)
    (f : α) (hf : f ∈ dedupByKey key seen l) :
    l.find? (fun g => key g == key f) = some f := by
  induction l generalizing seen with
  | nil => simp [dedupByKey] at hf
  | cons g rest ih =>
    simp only [dedupByKey] at hf
    by_cases hk : key g ∈ seen
    · simp only [if_pos hk] at hf
      have hne : key g ≠ key f := by
        intro h
        exact mem_dedupByKey_key_not_seen key seen rest f hf (h ▸ hk)
      rw [List.find?_cons_of_neg _ (by simpa using hne)]
      exact ih seen hf
    · simp only [if_neg hk] at hf
      rcases List.mem_cons.1 hf with rfl | hmem
      · rw [List.find?_cons_of_pos _ (by simp)]
      · have hne : key g ≠ key f := by
          intro h
          exact mem_dedupByKey_key_not_seen key _ rest f hmem (by simp [h])
        rw [List.find?_cons_of_neg _ (by simpa using hne)]
        exact ih (key g :: seen) hmem

/-- Keys in the output are pairwise distinct. -/
theorem dedupByKey_keys_nodup (key : α → String) (seen : List String) (l : List α) :
    ((dedupByKey key seen l).map key).Nodup := by
  induction l generalizing seen with
  | nil => simp [dedupByKey]
  | cons g rest ih =>
    simp only [dedupByKey]
    split
    · exact ih seen
    · simp only [List.map_cons, List.nodup_cons]
      refine ⟨?_, ih (key g :: seen)⟩
      intro hmem
      obtain ⟨f, hf, hkey⟩ := List.mem_map.1 hmem
      exact mem_dedupByKey_key_not_seen key _ rest f hf (by simp [hkey])

/-- On a list whose keys avoid `seen` and are pairwise distinct,
`dedupByKey` is the identity. -/
theorem dedupByKey_eq_self (key : α → String) (seen : List String) (l : List α)
    (hd : (l.map key).Nodup) (hs : ∀ f ∈ l, key f ∉ seen) :
    dedupByKey key seen l = l := by
  induction l generalizing seen with
  | nil => rfl
  | cons g rest ih =>
    simp only [List.map_cons, List.nodup_cons] at hd
    rw [dedupByKey, if_neg (hs g (List.mem_cons_self g _))]
    congr 1
    refine ih (key g :: seen) hd.2 fun f hf => ?_
    simp only [List.mem_cons]
    push_neg
    refine ⟨fun h => hd.1 ?_, hs f (List.mem_cons_of_mem _ hf)⟩
    exact h ▸ List.mem_map_of_mem key hf

theorem dedupByKey_idem (key : α → String) (l : List α) :
    dedupByKey key [] (dedupByKey key [] l) = dedupByKey key [] l :=
  dedupByKey_eq_self key [] _ (dedupByKey_keys_nodup key [] l) (by simp)

/-! ## A backtracking regular-expression engine

Every quantifier in the sources' detector regexes applies to a single
character class, so the engine needs only: character classes, literal
strings, concatenation, alternation, greedy `*`, greedy `{n,}`, exact
`{n}`, greedy `?` over a class, and greedy `?` over a subexpression.
`Reg.run r s` returns, in the JavaScript backtracking priority order,
the lengths of the prefixes of `s` that `r` can match; a JavaScript
regex match at a position takes the head of that list. -/

namespace Rx

/-- Length of the maximal prefix of `s` whose characters all satisfy
`p` — the amount a greedy single-class quantifier first consumes. -/
def maxRun (p : Char → Bool) : List Char → Nat
  | [] => 0
  | c :: rest => if p c then maxRun p rest + 1 else 0

/-- `ps` matches the head of `s` character by character. -/
def litMatch : List (Char → Bool) → List Char → Bool
  | [], _ => true
  | _ :: _, [] => false
  | p :: ps, c :: rest => p c && litMatch ps rest

inductive Reg where
  /-- a single character from a class -/
  | cls (p : Char → Bool)
  /-- a literal string, one predicate per character (case-insensitive
  literals use predicates accepting both cases) -/
  | lit (ps : List (Char → Bool))
  | seq (r1 r2 : Reg)
  | alt (r1 r2 : Reg)
  /-- greedy `[c]*` -/
  | star (p : Char → Bool)
  /-- greedy `[c]{n,}` -/
  | rep (n : Nat) (p : Char → Bool)
  /-- exact `[c]{n}` -/
  | repExact (n : Nat) (p : Char → Bool)
  /-- greedy `[c]?` -/
  | opt (p : Char → Bool)
  /-- greedy `(r)?` -/
  | optR (r : Reg)

/-- All prefix lengths `r` can match at the head of `s`, in JavaScript
backtracking priority order (first element = what `exec` matches). -/
def Reg.run : Reg → List Char → List Nat
  | .cls p, s =>
    match s with
    | [] => []
    | c :: _ => if p c then [1] else []
  | .lit ps, s => if litMatch ps s then [ps.length] else []
  | .seq r1 r2, s => (r1.run s).flatMap fun a => (r2.run (s.drop a)).map (a + ·)
  | .alt r1 r2, s => r1.run s ++ r2.run s
  | .star p, s => (List.range (maxRun p s + 1)).reverse
  | .rep n p, s =>
    let k := maxRun p s
    if n ≤ k then (List.range' n (k + 1 - n)).reverse else []
  | .repExact n p, s => if litMatch (List.replicate n p) s then [n] else []
  | .opt p, s =>
    match s with
    | [] => [0]
    | c :: _ => if p c then [1, 0] else [0]
  | .optR r, s => r.run s ++ [0]

/-- Sequencing helper for writing regexes: `cat [a, b, c]`. -/
def cat : List Reg → Reg
  | [] => .lit []
  | [r] => r
  | r :: rest => .seq r (cat rest)

/-- Case-sensitive literal. -/
def str (s : String) : Reg := .lit (s.data.map fun c => (· = c))

/-- Case-insensitive literal (the `i` flag). -/
def strCI (s : String) : Reg :=
  .lit (s.data.map fun c => fun d => JsStr.lowerChar d = JsStr.lowerChar c)

/-- The class `\s` (JavaScript whitespace; the sources only ever meet
ASCII whitespace). -/
def wsChar (c : Char) : Bool :=
  c = ' ' ∨ c = '\t' ∨ c = '\n' ∨ c = '\r' ∨ c = '\x0b' ∨ c = '\x0c'

/-- The class `\w` = `[A-Za-z0-9_]`, for word boundaries. -/
def wordChar (c : Char) : Bool :=
  ('a' ≤ c ∧ c ≤ 'z') ∨ ('A' ≤ c ∧ c ≤ 'Z') ∨ ('0' ≤ c ∧ c ≤ '9') ∨ c = '_'

/-- A matcher: at a position in the content, the length of the match
found there, if any.  `Matcher`s are what the scanners iterate with;
plain regexes ignore the left context, `\b`-anchored ones inspect the
preceding character. -/
def matcherOf (r : Reg) (content : List Char) (i : Nat) : Option Nat :=
  (r.run (content.drop i)).head?

/-- `\b` followed by `r` where `r` starts with a word character: the
previous character must be absent or a non-word character. -/
def matcherOfB (r : Reg) (content : List Char) (i : Nat) : Option Nat :=
  match i, content.get? (i - 1) with
  | 0, _ => matcherOf r content i
  | _ + 1, some c => if wordChar c then none else matcherOf r content i
  | _ + 1, none => matcherOf r content i

/-- The `lastIndex`-driven `while (m = re.exec(content))` loop of the
scanners: scan positions left to right, record each match, resume just
past it (JavaScript advances by one on an empty match to avoid looping;
none of the sources' patterns can match empty).  Returns the list of
`(index, length)` pairs. -/
def execAll (f : Nat → Option Nat) (n : Nat) (i : Nat) : List (Nat × Nat) :=
  if hle : i ≤ n then
    match f i with
    | none => execAll f n (i + 1)
    | some l => (i, l) :: execAll f n (i + max l 1)
  else []
termination_by n + 1 - i
decreasing_by
  · omega
  · omega

theorem execAll_sound (f : Nat → Option Nat) (n : Nat) (i : Nat) (j l : Nat)
    (hmem : (j, l) ∈ execAll f n i) : f j = some l ∧ i ≤ j ∧ j ≤ n := by
  suffices H : ∀ fuel i, n + 1 - i = fuel →
      (j, l) ∈ execAll f n i → f j = some l ∧ i ≤ j ∧ j ≤ n from H _ i rfl hmem
  intro fuel
  induction fuel using Nat.strong_induction_on with
  | _ fuel ih =>
    intro i hfi hm
    rw [execAll] at hm
    split at hm
    · rename_i hin
      split at hm
      · have hres := ih (n + 1 - (i + 1)) (by omega) (i + 1) rfl hm
        exact ⟨hres.1, by omega, hres.2.2⟩
      · rename_i l' hl'
        rcases List.mem_cons.1 hm with heq | hmem'
        · have h1 : j = i := congrArg Prod.fst heq
          have h2 : l = l' := congrArg Prod.snd heq
          subst h1; subst h2
          exact ⟨hl', le_refl _, hin⟩
        · have hmax := Nat.le_max_right l' 1
          have hres := ih (n + 1 - (i + max l' 1)) (by omega) (i + max l' 1) rfl hmem'
          exact ⟨hres.1, by omega, hres.2.2⟩
    · simp at hm

/-- If some position `≥ start` matches, the exec loop records a match
at or before the first such position. -/
theorem execAll_reaches (f : Nat → Option Nat) (n : Nat) (start i l : Nat)
    (hf : f i = some l) (hin : i ≤ n) (hs : start ≤ i) :
    ∃ j l', (j, l') ∈ execAll f n start ∧ j ≤ i := by
  suffices H : ∀ fuel start, n + 1 - start = fuel → start ≤ i →
      ∃ j l', (j, l') ∈ execAll f n start ∧ j ≤ i from H _ start rfl hs
  intro fuel
  induction fuel using Nat.strong_induction_on with
  | _ fuel ih =>
    intro start hfs hsi
    rw [execAll, dif_pos (le_trans hsi hin)]
    cases hfst : f start with
    | none =>
      have hne : start ≠ i := fun h => by rw [h, hf] at hfst; cases hfst
      obtain ⟨j, l', hmem, hji⟩ :=
        ih (n + 1 - (start + 1)) (by omega) (start + 1) rfl (by omega)
      exact ⟨j, l', hmem, hji⟩
    | some l0 =>
      exact ⟨start, l0, List.mem_cons_self _ _, hsi⟩

/-! ### Membership characterisations of `Reg.run` -/

theorem mem_run_cls {p : Char → Bool} {s : List Char} {l : Nat}
    (h : l ∈ (Reg.cls p).run s) : l = 1 ∧ ∃ c, s.head? = some c ∧ p c := by
  cases s with
  | nil => simp [Reg.run] at h
  | cons c rest =>
    simp only [Reg.run] at h
    split at h
    · simp only [List.mem_singleton] at h
      exact ⟨h, c, rfl, by assumption⟩
    · simp at h

theorem mem_run_lit {ps : List (Char → Bool)} {s : List Char} {l : Nat}
    (h : l ∈ (Reg.lit ps).run s) : l = ps.length ∧ litMatch ps s := by
  simp only [Reg.run] at h
  split at h
  · simp only [List.mem_singleton] at h
    exact ⟨h, by assumption⟩
  · simp at h

theorem mem_run_seq {r1 r2 : Reg} {s : List Char} {l : Nat}
    (h : l ∈ (Reg.seq r1 r2).run s) :
    ∃ a b, a ∈ r1.run s ∧ b ∈ r2.run (s.drop a) ∧ l = a + b := by
  simp only [Reg.run, List.mem_flatMap, List.mem_map] at h
  obtain ⟨a, ha, b, hb, hab⟩ := h
  exact ⟨a, b, ha, hb, hab.symm⟩

theorem mem_run_alt {r1 r2 : Reg} {s : List Char} {l : Nat}
    (h : l ∈ (Reg.alt r1 r2).run s) : l ∈ r1.run s ∨ l ∈ r2.run s := by
  simpa [Reg.run] using h

theorem mem_run_star {p : Char → Bool} {s : List Char} {l : Nat}
    (h : l ∈ (Reg.star p).run s) : l ≤ maxRun p s := by
  simp only [Reg.run, List.mem_reverse, List.mem_range] at h
  omega

theorem mem_run_rep {n : Nat} {p : Char → Bool} {s : List Char} {l : Nat}
    (h : l ∈ (Reg.rep n p).run s) : n ≤ l ∧ l ≤ maxRun p s := by
  simp only [Reg.run] at h
  split at h
  · simp only [List.mem_reverse, List.mem_range'] at h
    omega
  · simp at h

/-- Characters inside the maximal run satisfy the class. -/
theorem maxRun_sat {p : Char → Bool} {s : List Char} {m : Nat}
    (h : m < maxRun p s) : ∃ c, s.get? m = some c ∧ p c := by
  induction s generalizing m with
  | nil => simp [maxRun] at h
  | cons c rest ih =>
    simp only [maxRun] at h
    split at h
    · cases m with
      | zero => exact ⟨c, rfl, by assumption⟩
      | succ m' => exact ih (by omega)
    · omega

/-- A satisfied literal pins down each character of the prefix. -/
theorem litMatch_sat {ps : List (Char → Bool)} {s : List Char}
    (h : litMatch ps s) (m : Nat) (hm : m < ps.length) :
    ∃ c q, s.get? m = some c ∧ ps.get? m = some q ∧ q c := by
  induction ps generalizing s m with
  | nil => simp at hm
  | cons q ps' ih =>
    cases s with
    | nil => simp [litMatch] at h
    | cons c rest =>
      simp only [litMatch, Bool.and_eq_true] at h
      cases m with
      | zero => exact ⟨c, q, rfl, rfl, h.1⟩
      | succ m' =>
        obtain ⟨c', q', h1, h2, h3⟩ := ih h.2 m' (by simpa using hm)
        exact ⟨c', q', by simpa using h1, by simpa using h2, h3⟩

end Rx

/-! ## `src/lib/code-analyzer/security.js` -/

namespace Security

/-- A finding as produced by `scanFile`: `{id, file, line, type,
severity, title, description, fix, match, snippet, confidence}`
(`match` is a Lean keyword, so the field is called `matchStr`). -/
structure SecFinding where
  id : String
  file : String
  line : Nat
  type : String
  severity : String
  title : String
  description : String
  fix : String
  matchStr : String
  snippet : String
  confidence : String
  deriving Repr, DecidableEq

/-- One entry of the `SECURITY_PATTERNS` rule table; the regex is
given as its matcher. -/
structure SecurityPattern where
  id : String
  type : String
  severity : String
  matcher : List Char → Nat → Option Nat
  title : String
  description : String
  fix : String

open Rx

/-- `[_-]` -/
def sepChar (c : Char) : Bool := c = '_' ∨ c = '-'
/-- `[:=]` -/
def colonEq (c : Char) : Bool := c = ':' ∨ c = '='
/-- `['"]` -/
def quote2 (c : Char) : Bool := c = '\'' ∨ c = '"'
/-- `['"`]` -/
def quote3 (c : Char) : Bool := c = '\'' ∨ c = '"' ∨ c = '`'
/-- `[a-zA-Z0-9_\-]` -/
def keyChar (c : Char) : Bool :=
  ('a' ≤ c ∧ c ≤ 'z') ∨ ('A' ≤ c ∧ c ≤ 'Z') ∨ ('0' ≤ c ∧ c ≤ '9') ∨ c = '_' ∨ c = '-'
/-- `[0-9A-Z]` -/
def awsChar (c : Char) : Bool := ('0' ≤ c ∧ c ≤ '9') ∨ ('A' ≤ c ∧ c ≤ 'Z')

/-- `/(api[_-]?key|apikey)\s*[:=]\s*['"][a-zA-Z0-9_\-]{20,}['"]/gi` -/
def apiKeyReg : Reg :=
  cat [.alt (cat [strCI "api", .opt sepChar, strCI "key"]) (strCI "apikey"),
    .star wsChar, .cls colonEq, .star wsChar, .cls quote2, .rep 20 keyChar,
    .cls quote2]

/-- `/(secret|password|passwd|pwd)\s*[:=]\s*['"][^'"]{8,}['"]/gi` -/
def secretReg : Reg :=
  cat [.alt (strCI "secret")
      (.alt (strCI "password") (.alt (strCI "passwd") (strCI "pwd"))),
    .star wsChar, .cls colonEq, .star wsChar, .cls quote2,
    .rep 8 (fun c => !quote2 c), .cls quote2]

/-- `/AKIA[0-9A-Z]{16}/g` -/
def awsReg : Reg := cat [str "AKIA", .repExact 16 awsChar]

/-- `/-----BEGIN (RSA |EC |DSA |OPENSSH )?PRIVATE KEY-----/g` -/
def privateKeyReg : Reg :=
  cat [str "-----BEGIN ",
    .optR (.alt (str "RSA ") (.alt (str "EC ") (.alt (str "DSA ") (str "OPENSSH ")))),
    str "PRIVATE KEY-----"]

/-- `/(jwt[_-]?secret|token[_-]?secret)\s*[:=]\s*['"][^'"]+['"]/gi` -/
def jwtReg : Reg :=
  cat [.alt (cat [strCI "jwt", .opt sepChar, strCI "secret"])
      (cat [strCI "token", .opt sepChar, strCI "secret"]),
    .star wsChar, .cls colonEq, .star wsChar, .cls quote2,
    .rep 1 (fun c => !quote2 c), .cls quote2]

/-- `/(\$\{|\+\s*)\s*(req\.|request\.|params\.|query\.|body\.)[^}]+\}?\s*(\+|`)/g` -/
def sqlReg : Reg :=
  cat [.alt (str "$\x7b") (cat [str "+", .star wsChar]), .star wsChar,
    .alt (str "req.") (.alt (str "request.")
      (.alt (str "params.") (.alt (str "query.") (str "body.")))),
    .rep 1 (fun c => c ≠ '}'), .opt (fun c => c = '}'), .star wsChar,
    .cls (fun c => c = '+' ∨ c = '`')]

/-- `/\.raw\s*\(\s*['"`]/g` -/
def rawQueryReg : Reg :=
  cat [str ".raw", .star wsChar, str "(", .star wsChar, .cls quote3]

/-- `/\.innerHTML\s*=\s*[^;]+/g` -/
def innerHtmlReg : Reg :=
  cat [str ".innerHTML", .star wsChar, str "=", .star wsChar,
    .rep 1 (fun c => c ≠ ';')]

/-- `/dangerouslySetInnerHTML/g` -/
def dangerousReg : Reg := str "dangerouslySetInnerHTML"

/-- `/document\.write\s*\(/g` -/
def docWriteReg : Reg := cat [str "document.write", .star wsChar, str "("]

/-- `/(exec|execSync|spawn|spawnSync)\s*\([^)]*(\$\{|req\.|request\.|params\.)/g` -/
def execReg : Reg :=
  cat [.alt (str "exec") (.alt (str "execSync") (.alt (str "spawn") (str "spawnSync"))),
    .star wsChar, str "(", .star (fun c => c ≠ ')'),
    .alt (str "$\x7b") (.alt (str "req.") (.alt (str "request.") (str "params.")))]

/-- the part of `/\beval\s*\([^)]+\)/g` after the word boundary -/
def evalReg : Reg :=
  cat [str "eval", .star wsChar, str "(", .rep 1 (fun c => c ≠ ')'), str ")"]

/-- `/(readFile|readFileSync|writeFile|writeFileSync)\s*\([^)]*(\$\{|req\.|request\.|params\.)/g` -/
def pathTraversalReg : Reg :=
  cat [.alt (str "readFile") (.alt (str "readFileSync")
      (.alt (str "writeFile") (str "writeFileSync"))),
    .star wsChar, str "(", .star (fun c => c ≠ ')'),
    .alt (str "$\x7b") (.alt (str "req.") (.alt (str "request.") (str "params.")))]

/-- `/cors\s*\(\s*\{\s*origin\s*:\s*['"]?\*['"]?/gi` -/
def corsReg : Reg :=
  cat [strCI "cors", .star wsChar, str "(", .star wsChar, str "\x7b",
    .star wsChar, strCI "origin", .star wsChar, str ":", .star wsChar,
    .opt quote2, str "*", .opt quote2]

/-- `/https?\s*:\s*false|secure\s*:\s*false/gi` -/
def httpsDisabledReg : Reg :=
  .alt (cat [strCI "http", .opt (fun c => c = 's' ∨ c = 'S'), .star wsChar,
      str ":", .star wsChar, strCI "false"])
    (cat [strCI "secure", .star wsChar, str ":", .star wsChar, strCI "false"])

/-- `/debug\s*[:=]\s*true|DEBUG\s*=\s*['"]?true/gi` -/
def debugReg : Reg :=
  .alt (cat [strCI "debug", .star wsChar, .cls colonEq, .star wsChar, strCI "true"])
    (cat [strCI "debug", .star wsChar, str "=", .star wsChar, .opt quote2,
      strCI "true"])

/-- `/createHash\s*\(\s*['"]md5['"]\)/gi` -/
def md5Reg : Reg :=
  cat [strCI "createHash", .star wsChar, str "(", .star wsChar, .cls quote2,
    strCI "md5", .cls quote2, str ")"]

/-- `/createHash\s*\(\s*['"]sha1['"]\)/gi` -/
def sha1Reg : Reg :=
  cat [strCI "createHash", .star wsChar, str "(", .star wsChar, .cls quote2,
    strCI "sha1", .cls quote2, str ")"]

/-- `/\/\/\s*TODO:?\s*(add|implement)?\s*auth/gi` -/
def noAuthReg : Reg :=
  cat [str "//", .star wsChar, strCI "todo", .opt (fun c => c = ':'), .star wsChar,
    .optR (.alt (strCI "add") (strCI "implement")), .star wsChar, strCI "auth"]

/-- The fixed `SECURITY_PATTERNS` rule table of `security.js`. -/
def SECURITY_PATTERNS : List SecurityPattern := [
  { id := "hardcoded-api-key", type := "Hardcoded Secret", severity := "critical",
    matcher := matcherOf apiKeyReg, title := "Hardcoded API Key",
    description := "API key appears to be hardcoded in source code",
    fix := "Move API keys to environment variables" },
  { id := "hardcoded-secret", type := "Hardcoded Secret", severity := "critical",
    matcher := matcherOf secretReg, title := "Hardcoded Secret/Password",
    description := "Secret or password appears to be hardcoded",
    fix := "Use environment variables or a secrets manager" },
  { id := "aws-key", type := "Hardcoded Secret", severity := "critical",
    matcher := matcherOf awsReg, title := "AWS Access Key",
    description := "AWS access key ID found in source code",
    fix := "Remove and rotate the AWS key immediately" },
  { id := "private-key", type := "Hardcoded Secret", severity := "critical",
    matcher := matcherOf privateKeyReg, title := "Private Key Exposed",
    description := "Private key found in source code",
    fix := "Remove private key and store securely outside repo" },
  { id := "jwt-secret", type := "Hardcoded Secret", severity := "high",
    matcher := matcherOf jwtReg, title := "Hardcoded JWT Secret",
    description := "JWT signing secret is hardcoded",
    fix := "Move to environment variables" },
  { id := "sql-injection", type := "SQL Injection", severity := "high",
    matcher := matcherOf sqlReg, title := "Potential SQL Injection",
    description := "User input may be directly concatenated into SQL query",
    fix := "Use parameterized queries or prepared statements" },
  { id := "raw-query", type := "SQL Injection", severity := "medium",
    matcher := matcherOf rawQueryReg, title := "Raw SQL Query",
    description := "Raw SQL queries may be vulnerable to injection",
    fix := "Prefer ORM methods or use parameterized queries" },
  { id := "innerhtml", type := "XSS", severity := "high",
    matcher := matcherOf innerHtmlReg, title := "innerHTML Assignment",
    description := "Direct innerHTML assignment may enable XSS",
    fix := "Use textContent or sanitize HTML before insertion" },
  { id := "dangerously-set-html", type := "XSS", severity := "high",
    matcher := matcherOf dangerousReg, title := "dangerouslySetInnerHTML Usage",
    description := "React's dangerouslySetInnerHTML bypasses XSS protection",
    fix := "Sanitize content with DOMPurify before rendering" },
  { id := "document-write", type := "XSS", severity := "high",
    matcher := matcherOf docWriteReg, title := "document.write Usage",
    description := "document.write can introduce XSS vulnerabilities",
    fix := "Use DOM manipulation methods instead" },
  { id := "exec-injection", type := "Command Injection", severity := "critical",
    matcher := matcherOf execReg, title := "Command Injection Risk",
    description := "User input may be passed to shell command",
    fix := "Sanitize input and avoid shell execution with user data" },
  { id := "eval-usage", type := "Code Injection", severity := "critical",
    matcher := matcherOfB evalReg, title := "eval() Usage",
    description := "eval() can execute arbitrary code",
    fix := "Avoid eval(); use safer alternatives like JSON.parse()" },
  { id := "path-traversal", type := "Path Traversal", severity := "high",
    matcher := matcherOf pathTraversalReg, title := "Path Traversal Risk",
    description := "User input in file path may allow directory traversal",
    fix := "Validate and sanitize file paths; use path.resolve()" },
  { id := "cors-wildcard", type := "Misconfiguration", severity := "medium",
    matcher := matcherOf corsReg, title := "CORS Wildcard Origin",
    description := "CORS allows requests from any origin",
    fix := "Restrict to specific trusted origins" },
  { id := "https-disabled", type := "Misconfiguration", severity := "medium",
    matcher := matcherOf httpsDisabledReg, title := "HTTPS/Secure Disabled",
    description := "Security feature appears to be disabled",
    fix := "Enable HTTPS and secure flags in production" },
  { id := "debug-enabled", type := "Misconfiguration", severity := "low",
    matcher := matcherOf debugReg, title := "Debug Mode Enabled",
    description := "Debug mode should be disabled in production",
    fix := "Use environment-based configuration" },
  { id := "md5-usage", type := "Weak Cryptography", severity := "medium",
    matcher := matcherOf md5Reg, title := "MD5 Hash Usage",
    description := "MD5 is cryptographically broken",
    fix := "Use SHA-256 or stronger hashing algorithms" },
  { id := "sha1-usage", type := "Weak Cryptography", severity := "low",
    matcher := matcherOf sha1Reg, title := "SHA1 Hash Usage",
    description := "SHA1 is considered weak for security purposes",
    fix := "Use SHA-256 or stronger algorithms" },
  { id := "no-auth-check", type := "Authentication", severity := "medium",
    matcher := matcherOf noAuthReg, title := "Missing Authentication",
    description := "TODO comment suggests authentication not implemented",
    fix := "Implement proper authentication before deployment" }]

/-- The `CODE_EXTENSIONS` allow-list of `security.js`. -/
def CODE_EXTENSIONS : List String :=
  [".js", ".jsx", ".ts", ".tsx", ".mjs", ".cjs",
   ".py", ".rb", ".php", ".java", ".go", ".rs",
   ".vue", ".svelte"]

/-- The line-number loop of `scanFile`: accumulate `lines[i].length + 1`
until the running total exceeds the match position; `lineNumber` stays
at its initial `1` if the loop never breaks. -/
def findLineGo (i cc position : Nat) : List (List Char) → Nat
  | [] => 1
  | l :: rest =>
    if cc + l.length + 1 > position then i + 1
    else findLineGo (i + 1) (cc + l.length + 1) position rest

def findLineNumber (lines : List (List Char)) (position : Nat) : Nat :=
  findLineGo 0 0 position lines

/-- `lines.join("\n")`. -/
def joinNl : List (List Char) → List Char
  | [] => []
  | [l] => l
  | l :: rest => l ++ '\n' :: joinNl rest

/-- `scanFile(filePath, content)`: skip empty (falsy) content, skip
files whose extension is not allow-listed; otherwise run every rule's
regex over the whole content, computing a 1-based line number and a
snippet for each match.  (JavaScript resets `lastIndex` before each
file, which `execAll` starting at position 0 reflects.) -/
def scanFile (filePath content : String) : List SecFinding :=
  if content = "" then []
  else if JsStr.extOf filePath ∉ CODE_EXTENSIONS then []
  else
    let cs := content.data
    let lines := JsStr.splitNl cs
    SECURITY_PATTERNS.flatMap fun p =>
      (Rx.execAll (p.matcher cs) cs.length 0).map fun m =>
        let lineNumber := findLineNumber lines m.1
        let snippetStart := lineNumber - 2
        let snippetEnd := min lines.length (lineNumber + 1)
        { id := p.id ++ "-" ++ filePath ++ "-" ++ toString lineNumber,
          file := filePath,
          line := lineNumber,
          type := p.type,
          severity := p.severity,
          title := p.title,
          description := p.description,
          fix := p.fix,
          matchStr := String.mk (((cs.drop m.1).take m.2).take 100),
          snippet := String.mk (joinNl ((lines.drop snippetStart).take (snippetEnd - snippetStart))),
          confidence := "high" }

def secKey (f : SecFinding) : String :=
  f.file ++ ":" ++ toString f.line ++ ":" ++ f.title

def severityRank (s : String) : Nat :=
  if s = "critical" then 0 else if s = "high" then 1
  else if s = "medium" then 2 else if s = "low" then 3 else 4

/-- `scanFiles(files)`: concatenate per-file findings (skipping files
without content), deduplicate by `file:line:title` keeping the first
occurrence, then stable-sort by severity rank. -/
def scanFiles (files : List FileRec) : List SecFinding :=
  let allFindings := files.flatMap fun f =>
    match f.content with
    | none => []
    | some c => scanFile f.path c
  let deduplicated := dedupByKey secKey [] allFindings
  deduplicated.mergeSort fun a b => severityRank a.severity ≤ severityRank b.severity

/-- `filterCodeFiles(files, maxFiles = 20)`. -/
def filterCodeFiles (files : List FileRec) (maxFiles : Nat := 20) : List FileRec :=
  (files.filter fun f => JsStr.extOf f.path ∈ CODE_EXTENSIONS).take maxFiles

end Security

/-! ## The octokit helper module (`github.js`): trees and batched fetching

Remote behaviour is abstracted by two oracles: `listing` maps a path to
the directory contents `getContent` reports (`none` = the request
failed), and a `String → GhContent` oracle gives per-file fetch
outcomes.  `localeCompare` ordering is abstracted by a boolean
comparison oracle `lc`. -/

/-- One repository tree node `{name, path, type, size, children}`; an
absent `children` field is represented by `[]` (the two are
indistinguishable to every consumer in the sources). -/
inductive TreeNode where
  | mk (name path type : String) (size : Nat) (children : List TreeNode)

def TreeNode.name : TreeNode → String | .mk n _ _ _ _ => n
def TreeNode.path : TreeNode → String | .mk _ p _ _ _ => p
def TreeNode.type : TreeNode → String | .mk _ _ t _ _ => t
def TreeNode.size : TreeNode → Nat | .mk _ _ _ s _ => s
def TreeNode.children : TreeNode → List TreeNode | .mk _ _ _ _ c => c

/-- One raw item of a `getContent` directory listing. -/
structure RawItem where
  name : String
  path : String
  type : String
  size : Nat

/-- Outcome of fetching one path's content: a directory (or other
non-file), a decoded file, a 404, or another transport error. -/
inductive GhContent where
  | dir
  | file (content : String) (size : Nat) (sha : String)
  | notFound (msg : String)
  | failed (msg : String)

namespace Gh

/-- The sibling sort comparator of `buildFileTree`: directories first,
then `localeCompare` (abstracted by `lc`) on names. -/
def siblingLe (lc : String → String → Bool) (a b : TreeNode) : Bool :=
  if a.type = b.type then lc a.name b.name else a.type = "dir"

/-- The skip set of the helper module's `buildFileTree` (seven names —
unlike the scan/fetch route version it does not list `.cache` or
`coverage`). -/
def skipDirs : List String :=
  ["node_modules", ".git", "dist", "build", ".next", "__pycache__", "vendor"]

/-- `buildFileTree(owner, repo, path = "", depth = 0, maxDepth = 5)`:
depth-capped recursive listing; directories in the skip set are dropped
entirely; a failing listing yields `[]`; siblings are sorted
directories-first then by name. -/
def buildFileTree (listing : String → Option (List RawItem))
    (lc : String → String → Bool) (path : String) (depth : Nat)
    (maxDepth : Nat := 5) : List TreeNode :=
  if depth > maxDepth then []
  else
    match listing path with
    | none => []
    | some items =>
      let tree := items.filterMap fun it =>
        if it.type = "dir" ∧ it.name ∈ skipDirs then none
        else some (TreeNode.mk it.name it.path it.type it.size
          (if h : it.type = "dir" ∧ depth < maxDepth then
            buildFileTree listing lc it.path (depth + 1) maxDepth
          else []))
      tree.mergeSort (siblingLe lc)
termination_by maxDepth + 1 - depth
decreasing_by omega

/-- `treeToString(tree, prefix = "")`: the connector-drawn rendering —
`└── `/`├── ` before each name, `    `/`│   ` continuation prefixes,
one line (ending in `\n`) per node. -/
def treeToString : List TreeNode → String → String
  | [], _ => ""
  | .mk n _ _ _ ch :: rest, pref =>
    let isLast := rest.isEmpty
    let connector := if isLast then "└── " else "├── "
    let childPrefix := if isLast then "    " else "│   "
    pref ++ connector ++ n ++ "\n" ++
      (if ch.length > 0 then treeToString ch (pref ++ childPrefix) else "") ++
      treeToString rest pref
termination_by t _ => sizeOf t
decreasing_by all_goals (simp_wf; try omega)

/-- `getFilePaths(tree, basePath = "")`: depth-first flattened file
paths (directories are recursed into, not listed). -/
def getFilePaths : List TreeNode → String → List String
  | [], _ => []
  | .mk n _ t _ ch :: rest, basePath =>
    let fullPath := if basePath ≠ "" then basePath ++ "/" ++ n else n
    (if t = "file" then [fullPath] else getFilePaths ch fullPath) ++
      getFilePaths rest basePath
termination_by t _ => sizeOf t
decreasing_by all_goals (simp_wf; try omega)

/-- `fetchFileContent(owner, repo, path)`: a non-file resolution throws
`Path "p" is not a file` into the local catch (the thrown error has no
`status`, so the 404 branch is not taken); a 404 yields `File not
found`; other failures carry their message.  Never raises. -/
def fetchFileContent (o : String → GhContent) (p : String) : FileRec :=
  match o p with
  | .dir =>
    { path := p, content := none,
      error := some ("Path \"" ++ p ++ "\" is not a file") }
  | .file c sz sha =>
    { path := p, content := some c, size := some sz, sha := some sha }
  | .notFound _ => { path := p, content := none, error := some "File not found" }
  | .failed m => { path := p, content := none, error := some m }

/-- `fetchFilesBatch(owner, repo, paths, maxConcurrent = 5)`: process
consecutive chunks of `maxConcurrent` paths, concatenating the chunks'
results in order.  The width is passed in successor form `c + 1`
(the JavaScript loop would not terminate at width 0). -/
def fetchFilesBatch (o : String → GhContent) (c : Nat) : List String → List FileRec
  | [] => []
  | p :: rest =>
    ((p :: rest).take (c + 1)).map (fetchFileContent o) ++
      fetchFilesBatch o c ((p :: rest).drop (c + 1))
termination_by l => l.length
decreasing_by simp; omega

end Gh

/-! ## The OpenAI helper module (`openai.js`): relevance selection -/

/-- Observable outcome of a "respond with JSON only" model call:
either the call threw (network/API error), or it returned JSON whose
`files`/`reason` fields may each be absent. -/
inductive AIOutcome where
  | err
  | ok (files : Option (List String)) (reason : Option String)

namespace Ai

/-- `{files, reason, tier}` as returned by `analyzeFileSelection`
(`reason` is `undefined` when the model's JSON lacks it). -/
structure SelectionResult where
  files : List String
  reason : Option String
  tier : String
  deriving Repr, DecidableEq

/-- The per-line regex `[├└]── (.+)$` of `extractMentionedFiles`: the
name following the first connector marker, if nonempty. -/
def treeLineName : List Char → Option (List Char)
  | [] => none
  | c :: rest =>
    if (c = '├' ∨ c = '└') ∧ rest.take 3 = ['─', '─', ' '] ∧ rest.drop 3 ≠ [] then
      some (rest.drop 3)
    else treeLineName rest

/-- `extractMentionedFiles(query, fileTreeString)`: names extracted
from connector lines of the rendering that occur (case-insensitively)
as substrings of the query. -/
def extractMentionedFiles (query fileTreeString : String) : List String :=
  (JsStr.splitNl fileTreeString.data).filterMap fun line =>
    match treeLineName line with
    | none => none
    | some nm =>
      if JsStr.includes (JsStr.lower query.data) (JsStr.lower nm) then
        some (String.mk nm)
      else none

/-- `analyzeFileSelection(query, fileTree, owner, repo)`.  Tier 1
("explicit"): query-mentioned names, capped to 15.  Tier 2 ("ai"): the
model's `files` capped to 15 — note `parsed.files.slice` throws when
`files` is absent, landing in the catch.  Any failure of the model
call gives the fixed fallback list with tier "fallback". -/
def analyzeFileSelection (query fileTree : String) (ai : AIOutcome) : SelectionResult :=
  let mentionedFiles := extractMentionedFiles query fileTree
  if mentionedFiles.length > 0 then
    { files := mentionedFiles.take 15,
      reason := some "Files explicitly mentioned in query", tier := "explicit" }
  else
    match ai with
    | .ok (some fs) r => { files := fs.take 15, reason := r, tier := "ai" }
    | _ =>
      { files := ["README.md", "package.json", "src/index.js", "src/App.jsx"],
        reason := some "Fallback to common entry files", tier := "fallback" }

end Ai

/-! ## The token-estimation module (`tokens.js`): budgeted assembly -/

namespace Tokens

/-- `estimateTokens(text)`: `0` for falsy text, else
`Math.ceil(text.length / 4)`. -/
def estimateTokens (text : String) : Nat :=
  if text = "" then 0 else (text.length + 3) / 4

/-- Index of the last `'\n'`, if any (`String.lastIndexOf`). -/
def lastIdxNlGo : List Char → Nat → Option Nat
  | [], _ => none
  | c :: rest, i =>
    match lastIdxNlGo rest (i + 1) with
    | some j => some j
    | none => if c = '\n' then some i else none

def lastIndexOfNl (cs : List Char) : Option Nat := lastIdxNlGo cs 0

structure TruncRes where
  text : String
  truncated : Bool
  deriving Repr, DecidableEq

/-- `truncateToTokenLimit(text, maxTokens)`.  The comparison
`lastNewline > maxChars * 0.8` is IEEE-double arithmetic; it is
abstracted by the oracle `fpGt` (given the `lastIndexOf` result, `-1`
when absent, and `maxChars`). -/
def truncateToTokenLimit (fpGt : Int → Nat → Bool) (text : String)
    (maxTokens : Nat) : TruncRes :=
  let currentTokens := estimateTokens text
  if currentTokens ≤ maxTokens then { text := text, truncated := false }
  else
    let maxChars := maxTokens * 4
    let truncated := text.data.take maxChars
    let lastNewline : Int :=
      match lastIndexOfNl truncated with
      | some i => (i : Int)
      | none => -1
    let cleanTruncated :=
      if fpGt lastNewline maxChars then truncated.take lastNewline.toNat
      else truncated
    { text := String.mk cleanTruncated ++ "\n\n[... content truncated due to length ...]",
      truncated := true }

structure BuildRes where
  context : String
  totalTokens : Nat
  includedFiles : List (String × Bool)
  skippedFiles : List String
  deriving Repr, DecidableEq

/-- The loop of `buildContextWithLimit`, with the accumulators made
explicit.  Files with falsy (absent or empty) content are passed over
silently; on the first block that would exceed the budget either a
truncated prefix is included (allowance `maxTokens - total - 100` above
500) or the file is recorded as skipped, and either way the loop
`break`s. -/
def buildCtxGo (fpGt : Int → Nat → Bool) (maxTokens : Nat) :
    List FileRec → String → Nat → List (String × Bool) → List String → BuildRes
  | [], ctx, tot, inc, skip => ⟨ctx, tot, inc, skip⟩
  | f :: rest, ctx, tot, inc, skip =>
    match f.content with
    | none => buildCtxGo fpGt maxTokens rest ctx tot inc skip
    | some c =>
      if c = "" then buildCtxGo fpGt maxTokens rest ctx tot inc skip
      else
        let fileHeader := "\n--- FILE: " ++ f.path ++ " ---\n"
        let fileContent := fileHeader ++ c ++ "\n"
        let fileTokens := estimateTokens fileContent
        if tot + fileTokens > maxTokens then
          let remainingTokens : Int := (maxTokens : Int) - (tot : Int) - 100
          if remainingTokens > 500 then
            let t := (truncateToTokenLimit fpGt c remainingTokens.toNat).text
            ⟨ctx ++ fileHeader ++ t ++ "\n", tot, inc ++ [(f.path, true)], skip⟩
          else ⟨ctx, tot, inc, skip ++ [f.path]⟩
        else
          buildCtxGo fpGt maxTokens rest (ctx ++ fileContent) (tot + fileTokens)
            (inc ++ [(f.path, false)]) skip

/-- `buildContextWithLimit(files, maxTokens = SAFE_CONTEXT_TOKENS)`. -/
def buildContextWithLimit (fpGt : Int → Nat → Bool) (files : List FileRec)
    (maxTokens : Nat := 80000) : BuildRes :=
  buildCtxGo fpGt maxTokens files "" 0 [] []

end Tokens

/-! ## The streaming protocol events

One typed event per `sendEvent(type, data)` call; `complete` carries
the scan result payload, `done` the chat terminal `{}`. -/

/-- `groupBySeverity` result: findings bucketed by severity. -/
structure Grouped where
  critical : List Finding
  high : List Finding
  medium : List Finding
  low : List Finding
  deriving Repr, DecidableEq

inductive StreamEvent where
  | status (message : String) (progress : Nat)
  | filesEv (files : List String) (reason : String) (count : Nat)
  | chunk (content : String)
  | complete (findings : List Finding) (grouped : Grouped) (summary : String)
      (scannedFiles : Nat) (totalFindings : Nat)
  | done
  | error (message : String)
  deriving Repr, DecidableEq

/-- Terminal events: `complete`, `done`, `error`. -/
def StreamEvent.isTerminal : StreamEvent → Bool
  | .complete .. => true
  | .done => true
  | .error _ => true
  | _ => false

def StreamEvent.isStatus : StreamEvent → Bool
  | .status .. => true
  | _ => false

/-! ## `api/code-analyzer/scan` -/

namespace ScanRoute

open Rx

/-- `/(\$\{|\+\s*)(req\.|request\.|params\.|query\.|body\.)/g` — the
scan route's simpler SQL-injection heuristic. -/
def scanSqlReg : Reg :=
  cat [.alt (str "$\x7b") (cat [str "+", .star wsChar]),
    .alt (str "req.") (.alt (str "request.")
      (.alt (str "params.") (.alt (str "query.") (str "body."))))]

/-- `/(exec|execSync|spawn)\s*\([^)]*(\$\{|req\.|params\.)/g` -/
def scanExecReg : Reg :=
  cat [.alt (str "exec") (.alt (str "execSync") (str "spawn")),
    .star wsChar, str "(", .star (fun c => c ≠ ')'),
    .alt (str "$\x7b") (.alt (str "req.") (str "params."))]

/-- The scan route's own ten-entry `SECURITY_PATTERNS` table. -/
def SECURITY_PATTERNS : List Security.SecurityPattern := [
  { id := "hardcoded-api-key", type := "Hardcoded Secret", severity := "critical",
    matcher := matcherOf Security.apiKeyReg, title := "Hardcoded API Key",
    description := "API key appears to be hardcoded in source code",
    fix := "Move API keys to environment variables" },
  { id := "hardcoded-secret", type := "Hardcoded Secret", severity := "critical",
    matcher := matcherOf Security.secretReg, title := "Hardcoded Secret/Password",
    description := "Secret or password appears to be hardcoded",
    fix := "Use environment variables or a secrets manager" },
  { id := "aws-key", type := "Hardcoded Secret", severity := "critical",
    matcher := matcherOf Security.awsReg, title := "AWS Access Key",
    description := "AWS access key ID found in source code",
    fix := "Remove and rotate the AWS key immediately" },
  { id := "eval-usage", type := "Code Injection", severity := "critical",
    matcher := matcherOfB Security.evalReg, title := "eval() Usage",
    description := "eval() can execute arbitrary code",
    fix := "Avoid eval(); use safer alternatives" },
  { id := "innerhtml", type := "XSS", severity := "high",
    matcher := matcherOf Security.innerHtmlReg, title := "innerHTML Assignment",
    description := "Direct innerHTML assignment may enable XSS",
    fix := "Use textContent or sanitize HTML" },
  { id := "dangerously-set-html", type := "XSS", severity := "high",
    matcher := matcherOf Security.dangerousReg, title := "dangerouslySetInnerHTML Usage",
    description := "Bypasses React's XSS protection",
    fix := "Sanitize content with DOMPurify" },
  { id := "sql-injection", type := "SQL Injection", severity := "high",
    matcher := matcherOf scanSqlReg, title := "Potential SQL Injection",
    description := "User input may be concatenated into SQL",
    fix := "Use parameterized queries" },
  { id := "exec-injection", type := "Command Injection", severity := "critical",
    matcher := matcherOf scanExecReg, title := "Command Injection Risk",
    description := "User input may be passed to shell",
    fix := "Sanitize input; avoid shell execution" },
  { id := "cors-wildcard", type := "Misconfiguration", severity := "medium",
    matcher := matcherOf Security.corsReg, title := "CORS Wildcard Origin",
    description := "CORS allows any origin",
    fix := "Restrict to trusted origins" },
  { id := "md5-usage", type := "Weak Cryptography", severity := "medium",
    matcher := matcherOf Security.md5Reg, title := "MD5 Hash Usage",
    description := "MD5 is cryptographically broken",
    fix := "Use SHA-256 or stronger" }]

/-- The scan route's own eight-entry `CODE_EXTENSIONS`. -/
def CODE_EXTENSIONS : List String :=
  [".js", ".jsx", ".ts", ".tsx", ".py", ".rb", ".php", ".go"]

/-- `(filePaths || []).filter(ext-allow-listed).slice(0, 20)` — the
"codeFiles" computed by the scan handler. -/
def codeFiles (filePaths : List String) : List String :=
  (filePaths.filter fun p => JsStr.extOf p ∈ CODE_EXTENSIONS).take 20

/-- `Math.round(10 + (i / paths.length) * 30)` in exact rational
arithmetic. -/
def fetchProgress (i total : Nat) : Nat :=
  if total = 0 then 10 else (21 * total + 60 * i) / (2 * total)

/-- The batch loop of the scan route's `fetchFiles`: one `status`
event per chunk of 5, per-path failures and non-files produce a null
content which the `.filter((f) => f.content)` then drops (note this
also drops empty files). -/
def fetchFilesGo (o : String → GhContent) (total : Nat) (i : Nat) :
    List String → List StreamEvent × List FileRec
  | [] => ([], [])
  | p :: rest =>
    let batch := (p :: rest).take 5
    let ev := StreamEvent.status
      ("Fetching files (" ++ toString (i + batch.length) ++ "/" ++ toString total ++ ")...")
      (fetchProgress i total)
    let batchResults : List FileRec := batch.map fun q =>
      match o q with
      | .file c _ _ => { path := q, content := some c }
      | _ => { path := q, content := none }
    let next := fetchFilesGo o total (i + 5) ((p :: rest).drop 5)
    (ev :: next.1,
      (batchResults.filter fun r => r.content.getD "" ≠ "") ++ next.2)
termination_by l => l.length
decreasing_by simp; omega

def fetchFiles (o : String → GhContent) (paths : List String) :
    List StreamEvent × List FileRec :=
  fetchFilesGo o paths.length 0 paths

/-- `runPatternScan(files)`: all rules over all files (a fresh
`lastIndex` per file, as the source resets it). -/
def runPatternScan (files : List FileRec) : List Finding :=
  files.flatMap fun f =>
    match f.content with
    | none => []
    | some c =>
      if c = "" then []
      else
        let cs := c.data
        let lines := JsStr.splitNl cs
        SECURITY_PATTERNS.flatMap fun p =>
          (Rx.execAll (p.matcher cs) cs.length 0).map fun m =>
            let lineNumber := Security.findLineNumber lines m.1
            { id := p.id ++ "-" ++ f.path ++ "-" ++ toString lineNumber,
              file := f.path, line := lineNumber, type := p.type,
              severity := p.severity, title := p.title,
              description := p.description, fix := p.fix,
              confidence := "high", source := "pattern" }

/-- `runAIScan(files)`: the model call and JSON parse are abstracted by
an oracle (`none` = the call or parse threw, caught and turned into
`[]`; `some fs` = the parsed `findings` array).  `ts` is the
`Date.now()` value used in the ids. -/
def runAIScan (o : Option (List Finding)) (ts : String) : List Finding :=
  match o with
  | none => []
  | some fs => fs.map fun f =>
      { f with
        id := "ai-" ++ f.file ++ "-" ++ toString f.line ++ "-" ++ ts,
        confidence := "medium",
        source := "ai" }

def findingKey (f : Finding) : String :=
  f.file ++ ":" ++ toString f.line ++ ":" ++ f.title

/-- `deduplicateFindings(findings)`: keep the first occurrence of each
`file:line:title` key. -/
def deduplicateFindings (findings : List Finding) : List Finding :=
  dedupByKey findingKey [] findings

/-- The handler's final filter: severity critical or high, or
confidence high. -/
def filteredFindings (allFindings : List Finding) : List Finding :=
  allFindings.filter fun f =>
    f.severity == "critical" || f.severity == "high" || f.confidence == "high"

def groupBySeverity (findings : List Finding) : Grouped :=
  { critical := findings.filter fun f => f.severity == "critical",
    high := findings.filter fun f => f.severity == "high",
    medium := findings.filter fun f => f.severity == "medium",
    low := findings.filter fun f => f.severity == "low" }

def generateSummary (findings : List Finding) : String :=
  let total := findings.length
  if total = 0 then "No security vulnerabilities detected."
  else
    let grouped := groupBySeverity findings
    let parts :=
      (if grouped.critical.length ≠ 0 then
        [toString grouped.critical.length ++ " critical"] else []) ++
      (if grouped.high.length ≠ 0 then
        [toString grouped.high.length ++ " high"] else []) ++
      (if grouped.medium.length ≠ 0 then
        [toString grouped.medium.length ++ " medium"] else []) ++
      (if grouped.low.length ≠ 0 then
        [toString grouped.low.length ++ " low"] else [])
    "Found " ++ toString total ++ " potential issue" ++
      (if total ≠ 1 then "s" else "") ++ ": " ++ String.intercalate ", " parts

/-- The scan handler's event trace and whether `res.end()` runs (it
always does — `finally`).  Inputs past the HTTP validation: the
`filePaths` array, the per-file fetch oracle, the AI-scan oracle and
the `Date.now()` string. -/
def scanHandler (filePaths : List String) (o : String → GhContent)
    (ai : Option (List Finding)) (ts : String) : List StreamEvent × Bool :=
  let cf := codeFiles filePaths
  if cf.isEmpty then ([.error "No code files found to scan"], true)
  else
    let ev1 := StreamEvent.status ("Scanning " ++ toString cf.length ++ " files...") 10
    let fetched := fetchFiles o cf
    let ev2 := StreamEvent.status "Running pattern-based scan..." 40
    let patternFindings := runPatternScan fetched.2
    let ev3 := StreamEvent.status "Running AI analysis..." 60
    let aiFindings := runAIScan ai ts
    let allFindings := deduplicateFindings (patternFindings ++ aiFindings)
    let filtered := filteredFindings allFindings
    let ev4 := StreamEvent.status "Generating summary..." 90
    let grouped := groupBySeverity filtered
    let summary := generateSummary filtered
    ([ev1] ++ fetched.1 ++ [ev2, ev3, ev4,
      .complete filtered grouped summary cf.length filtered.length,
      .status "Complete" 100], true)

end ScanRoute

/-! ## `api/code-analyzer/chat` -/

namespace ChatRoute

/-- `{files, reason}` as returned by `selectRelevantFiles` (this route
returns no `tier` field). -/
structure FilesReason where
  files : List String
  reason : String
  deriving Repr, DecidableEq

/-- `findMentionedFiles(query, tree)` — textually the same extraction
as the helper module's `extractMentionedFiles`. -/
def findMentionedFiles (query tree : String) : List String :=
  Ai.extractMentionedFiles query tree

/-- `selectRelevantFiles(query, tree, owner, repo)`: explicit mentions
first; otherwise the model's `(parsed.files || []).slice(0, 15)` with
`parsed.reason || "AI selected"`; any thrown error gives the fixed
`["README.md", "package.json"]` fallback. -/
def selectRelevantFiles (query tree : String) (ai : AIOutcome) : FilesReason :=
  let mentionedFiles := findMentionedFiles query tree
  if mentionedFiles.length > 0 then
    { files := mentionedFiles.take 15, reason := "Files mentioned in query" }
  else
    match ai with
    | .ok fs r =>
      { files := (fs.getD []).take 15, reason := r.getD "AI selected" }
    | .err =>
      { files := ["README.md", "package.json"], reason := "Fallback to default files" }

/-- One fetch of `fetchFileContents`: non-files record `"Not a file"`,
thrown errors record their message. -/
def fetchOne (o : String → GhContent) (p : String) : FileRec :=
  match o p with
  | .dir => { path := p, content := none, error := some "Not a file" }
  | .file c sz _ => { path := p, content := some c, size := some sz }
  | .notFound m => { path := p, content := none, error := some m }
  | .failed m => { path := p, content := none, error := some m }

/-- `fetchFileContents(owner, repo, paths)`: chunks of 5, results
concatenated in order (every path yields a record). -/
def fetchFileContents (o : String → GhContent) : List String → List FileRec
  | [] => []
  | p :: rest =>
    ((p :: rest).take 5).map (fetchOne o) ++
      fetchFileContents o ((p :: rest).drop 5)
termination_by l => l.length
decreasing_by simp; omega

/-- The loop of the chat route's `buildContext` (character-budgeted:
`MAX_CHARS = 80000 * 4`, buffer 100 and threshold 500 both in
characters). -/
def buildContextGo : List FileRec → String → Nat → String
  | [], ctx, _ => ctx
  | f :: rest, ctx, totalChars =>
    match f.content with
    | none => buildContextGo rest ctx totalChars
    | some c =>
      if c = "" then buildContextGo rest ctx totalChars
      else
        let fileBlock := "\n--- FILE: " ++ f.path ++ " ---\n" ++ c ++ "\n"
        let blockChars := fileBlock.length
        if totalChars + blockChars > 320000 then
          let remaining : Int := (320000 : Int) - (totalChars : Int) - 100
          if remaining > 500 then
            ctx ++ "\n--- FILE: " ++ f.path ++ " ---\n" ++
              String.mk (c.data.take remaining.toNat) ++ "\n[truncated]\n"
          else ctx
        else buildContextGo rest (ctx ++ fileBlock) (totalChars + blockChars)

def buildContext (files : List FileRec) : String :=
  buildContextGo files "" 0

/-- Outcome of the streaming completion call: the `create` call threw,
or it streamed some chunk contents and then either finished or threw
mid-stream. -/
inductive StreamOutcome where
  | createFail (msg : String)
  | streamed (chunks : List String) (thenErr : Option String)

/-- The chat handler's event trace and close flag (`res.end()` in
`finally` — always true). -/
def chatHandler (query tree : String) (ai : AIOutcome)
    (o : String → GhContent) (so : StreamOutcome) : List StreamEvent × Bool :=
  let relevantFiles := selectRelevantFiles query tree ai
  let evs := [StreamEvent.status "Analyzing query..." 10,
    .filesEv relevantFiles.files relevantFiles.reason relevantFiles.files.length,
    .status ("Fetching " ++ toString relevantFiles.files.length ++ " files...") 30]
  let fileContents := fetchFileContents o relevantFiles.files
  let _context := buildContext fileContents
  let evs2 := evs ++ [.status "Generating response..." 60]
  match so with
  | .createFail m => (evs2 ++ [.error m], true)
  | .streamed chunks thenErr =>
    let cevs := (chunks.filter fun c => c ≠ "").map StreamEvent.chunk
    match thenErr with
    | none =>
      (evs2 ++ [.status "Streaming response..." 80] ++ cevs ++
        [.status "Complete" 100, .done], true)
    | some m =>
      (evs2 ++ [.status "Streaming response..." 80] ++ cevs ++ [.error m], true)

end ChatRoute

/-! ## `api/code-analyzer/fetch` (tree acquisition) -/

namespace FetchRoute

/-- This route's skip set: the full nine names. -/
def skipDirs : List String :=
  ["node_modules", ".git", "dist", "build", ".next",
   "__pycache__", "vendor", ".cache", "coverage"]

/-- The fetch route's `buildFileTree(owner, repo, path = "", depth = 0)`
with its hard-coded cap (`depth > 4` prunes, children only when
`depth < 4`). -/
def buildFileTree (listing : String → Option (List RawItem))
    (lc : String → String → Bool) (path : String) (depth : Nat) : List TreeNode :=
  if depth > 4 then []
  else
    match listing path with
    | none => []
    | some items =>
      let tree := items.filterMap fun it =>
        if it.type = "dir" ∧ it.name ∈ skipDirs then none
        else some (TreeNode.mk it.name it.path it.type it.size
          (if h : it.type = "dir" ∧ depth < 4 then
            buildFileTree listing lc it.path (depth + 1)
          else []))
      tree.mergeSort (Gh.siblingLe lc)
termination_by 5 - depth
decreasing_by omega

end FetchRoute

/-! # Claim theorems -/

/-! ## C7 — the final scan filter -/

/-- Scenario E's critical finding. -/
def scenarioCritical : Finding :=
  { id := "p1", file := "a.js", line := 1, type := "Hardcoded Secret",
    severity := "critical", title := "Hardcoded API Key", description := "d",
    fix := "f", confidence := "high", source := "pattern" }

/-- Scenario E's medium-severity, medium(non-high)-confidence finding. -/
def scenarioMediumLow : Finding :=
  { id := "p2", file := "a.js", line := 2, type := "Misconfiguration",
    severity := "medium", title := "Debug Mode Enabled", description := "d",
    fix := "f", confidence := "medium", source := "ai" }

/-- Scenario E's medium-severity, high-confidence finding. -/
def scenarioMediumHigh : Finding :=
  { id := "p3", file := "b.js", line := 3, type := "Weak Cryptography",
    severity := "medium", title := "MD5 Hash Usage", description := "d",
    fix := "f", confidence := "high", source := "pattern" }

/-- **C7** For every finding list, the scan route's final filter
retains exactly the findings whose severity is critical or high, or
whose confidence is high regardless of severity; on the mixed Scenario
E set it keeps exactly the critical and the high-confidence finding. -/
theorem C7_final_filter (fs : List Finding) (f : Finding) :
    (f ∈ ScanRoute.filteredFindings fs ↔
      f ∈ fs ∧ (f.severity = "critical" ∨ f.severity = "high" ∨ f.confidence = "high"))
    ∧ ScanRoute.filteredFindings [scenarioCritical, scenarioMediumLow, scenarioMediumHigh]
        = [scenarioCritical, scenarioMediumHigh] := by
  constructor
  · simp [ScanRoute.filteredFindings, List.mem_filter, or_assoc]
  · decide

/-! ## C6 — the batched content fetcher -/

theorem fetchFileContents_eq_map (o : String → GhContent) (paths : List String) :
    ChatRoute.fetchFileContents o paths = paths.map (ChatRoute.fetchOne o) := by
  suffices H : ∀ n (l : List String), l.length ≤ n →
      ChatRoute.fetchFileContents o l = l.map (ChatRoute.fetchOne o) from
    H paths.length paths (le_refl _)
  intro n
  induction n with
  | zero =>
    intro l hl
    rw [List.length_eq_zero.1 (Nat.le_zero.1 hl)]
    simp [ChatRoute.fetchFileContents]
  | succ n ih =>
    intro l hl
    match l with
    | [] => simp [ChatRoute.fetchFileContents]
    | p :: rest =>
      rw [ChatRoute.fetchFileContents, ih ((p :: rest).drop 5) (by simp at hl ⊢; omega),
        ← List.map_append, List.take_append_drop]

theorem fetchFilesBatch_eq_map (o : String → GhContent) (c : Nat) (paths : List String) :
    Gh.fetchFilesBatch o c paths = paths.map (Gh.fetchFileContent o) := by
  suffices H : ∀ n (l : List String), l.length ≤ n →
      Gh.fetchFilesBatch o c l = l.map (Gh.fetchFileContent o) from
    H paths.length paths (le_refl _)
  intro n
  induction n with
  | zero =>
    intro l hl
    rw [List.length_eq_zero.1 (Nat.le_zero.1 hl)]
    simp [Gh.fetchFilesBatch]
  | succ n ih =>
    intro l hl
    match l with
    | [] => simp [Gh.fetchFilesBatch]
    | p :: rest =>
      rw [Gh.fetchFilesBatch, ih ((p :: rest).drop (c + 1)) (by simp at hl ⊢; omega),
        ← List.map_append, List.take_append_drop]

/-- **C6** Both batched fetchers return exactly one record per input
path, in the original input order (chunked fetching is equivalent to a
per-path map); a non-file resolution or a transport error yields a
record with null content and an error reason, and the per-path
functions are total (nothing escapes the batch). -/
theorem C6_batched_fetcher (o : String → GhContent) (paths : List String) (c : Nat) :
    ChatRoute.fetchFileContents o paths = paths.map (ChatRoute.fetchOne o)
    ∧ Gh.fetchFilesBatch o c paths = paths.map (Gh.fetchFileContent o)
    ∧ (ChatRoute.fetchFileContents o paths).map FileRec.path = paths
    ∧ (∀ p, (ChatRoute.fetchOne o p).path = p
        ∧ (o p = .dir → ChatRoute.fetchOne o p =
            { path := p, content := none, error := some "Not a file" })
        ∧ (∀ m, o p = .failed m → ChatRoute.fetchOne o p =
            { path := p, content := none, error := some m })
        ∧ ((ChatRoute.fetchOne o p).content = none →
            (ChatRoute.fetchOne o p).error ≠ none)) := by
  refine ⟨fetchFileContents_eq_map o paths, fetchFilesBatch_eq_map o c paths, ?_, ?_⟩
  · rw [fetchFileContents_eq_map]
    simp only [List.map_map]
    have : FileRec.path ∘ ChatRoute.fetchOne o = id := by
      funext p
      cases h : o p <;> simp [ChatRoute.fetchOne, h]
    rw [this, List.map_id]
  · intro p
    refine ⟨?_, ?_, ?_, ?_⟩ <;> cases h : o p <;>
      simp [ChatRoute.fetchOne, h]

/-! ## C10 — the 20-code-file cap of the scan pipeline -/

/-- Twenty-one paths `f0.js` … `f20.js`, all code files. -/
def twentyOnePaths : List String :=
  (List.range 21).map fun i => "f" ++ toString i ++ ".js"

/-- **C10** The scan handler examines at most the first 20 allow-listed
code files: `codeFiles` is the first-20 prefix of the extension filter
(and `filterCodeFiles` the first-`m` prefix), every retained path is a
code file, order is preserved, and the 21st code file of a 21-file list
is dropped without a trace. -/
theorem C10_code_file_cap (fp : List String) (files : List FileRec) (m : Nat) :
    (ScanRoute.codeFiles fp).length ≤ 20
    ∧ ScanRoute.codeFiles fp =
        (fp.filter fun p => JsStr.extOf p ∈ ScanRoute.CODE_EXTENSIONS).take 20
    ∧ (∀ p ∈ ScanRoute.codeFiles fp, JsStr.extOf p ∈ ScanRoute.CODE_EXTENSIONS)
    ∧ (ScanRoute.codeFiles fp).Sublist fp
    ∧ (Security.filterCodeFiles files m).length ≤ m
    ∧ Security.filterCodeFiles files m =
        (files.filter fun f => JsStr.extOf f.path ∈ Security.CODE_EXTENSIONS).take m
    ∧ ("f20.js" ∈ twentyOnePaths
        ∧ JsStr.extOf "f20.js" ∈ ScanRoute.CODE_EXTENSIONS
        ∧ "f20.js" ∉ ScanRoute.codeFiles twentyOnePaths) := by
  refine ⟨?_, rfl, ?_, ?_, ?_, rfl, by decide⟩
  · rw [ScanRoute.codeFiles, List.length_take]
    exact min_le_left _ _
  · intro p hp
    rw [ScanRoute.codeFiles] at hp
    simpa using (List.mem_filter.1 (List.mem_of_mem_take hp)).2
  · exact (List.take_sublist _ _).trans (List.filter_sublist _)
  · rw [Security.filterCodeFiles, List.length_take]
    exact min_le_left _ _

/-! ## C9 — deduplication by (file, line, title) -/

/-- A finding whose title contains a colon: key `"a:1:2:x"`. -/
def colonFindingA : Finding :=
  { id := "p", file := "a", line := 1, type := "T", severity := "critical",
    title := "2:x", description := "d", fix := "f", confidence := "high",
    source := "pattern" }

/-- A finding with a different (file, line, title) triple but the same
joined key `"a:1:2:x"`. -/
def colonFindingB : Finding :=
  { id := "q", file := "a:1", line := 2, type := "T", severity := "critical",
    title := "x", description := "d", fix := "f", confidence := "medium",
    source := "ai" }

/-- **C9 counterexample** Deduplication is keyed on the joined string
`file + ":" + line + ":" + title`, which conflates distinct
(file, line, title) triples when the file or title contains a colon:
`colonFindingB`'s triple differs from `colonFindingA`'s, its first (and
only) occurrence is dropped anyway — so dedup does *not* keep the first
occurrence of every (file, line, title) key. -/
theorem C9_counterexample :
    ScanRoute.deduplicateFindings [colonFindingA, colonFindingB] = [colonFindingA]
    ∧ (colonFindingB.file, colonFindingB.line, colonFindingB.title)
        ≠ (colonFindingA.file, colonFindingA.line, colonFindingA.title)
    ∧ ScanRoute.findingKey colonFindingA = ScanRoute.findingKey colonFindingB := by
  refine ⟨?_, by decide, by decide⟩
  decide

/-- **C9 (amended)** Deduplication keeps, for each joined key string
`file:line:title` (which agrees with the (file, line, title) triple
whenever the keys of distinct triples do not collide, e.g. for
colon-free file paths and titles), exactly the first occurrence in
enumeration order — so pattern findings, enumerated before model
findings, win ties — and it is idempotent. -/
theorem C9_dedup_first_and_idempotent (fs : List Finding) :
    (ScanRoute.deduplicateFindings fs).Sublist fs
    ∧ (∀ f ∈ fs, ∃ g ∈ ScanRoute.deduplicateFindings fs,
        ScanRoute.findingKey g = ScanRoute.findingKey f)
    ∧ (∀ f ∈ ScanRoute.deduplicateFindings fs,
        fs.find? (fun g => ScanRoute.findingKey g == ScanRoute.findingKey f) = some f)
    ∧ ScanRoute.deduplicateFindings (ScanRoute.deduplicateFindings fs)
        = ScanRoute.deduplicateFindings fs :=
  ⟨dedupByKey_sublist _ _ _,
   fun f hf => dedupByKey_covers _ _ _ f hf (by simp),
   fun f hf => dedupByKey_first _ _ _ f hf,
   dedupByKey_idem _ _⟩

/-! ## C2 — the relevance selector -/

/-- **C2 counterexample** On the model-selection tier the selector
returns tier `"ai"`, not `"model"`: the tier set is not
`{explicit, model, fallback}` as claimed. -/
theorem C2_counterexample :
    (Ai.analyzeFileSelection "hello" "" (.ok (some ["a.js"]) (some "r"))).tier = "ai"
    ∧ ¬ ((Ai.analyzeFileSelection "hello" "" (.ok (some ["a.js"]) (some "r"))).tier
          ∈ (["explicit", "model", "fallback"] : List String)) := by
  refine ⟨?_, ?_⟩ <;> decide

/-- The fixed fallback result of `analyzeFileSelection`. -/
def aiFallbackResult : Ai.SelectionResult :=
  { files := ["README.md", "package.json", "src/index.js", "src/App.jsx"],
    reason := some "Fallback to common entry files", tier := "fallback" }

/-- **C2 (amended)** For every query, tree rendering and model-call
outcome, `analyzeFileSelection` returns (never raises — it is total
over all modelled outcomes) a result whose files list has at most 15
entries and whose tier is one of exactly {explicit, ai, fallback}; any
failure of the model call (thrown error, or JSON without a `files`
field, whose `.slice` throws) yields tier "fallback" with the fixed
non-empty default list.  The chat route's `selectRelevantFiles`
likewise caps at 15 and falls back to a fixed non-empty list, but
returns no tier field at all. -/
theorem C2_selector_total (query tree : String) (ai : AIOutcome) :
    ((Ai.analyzeFileSelection query tree ai).tier = "explicit"
      ∨ (Ai.analyzeFileSelection query tree ai).tier = "ai"
      ∨ (Ai.analyzeFileSelection query tree ai).tier = "fallback")
    ∧ (Ai.analyzeFileSelection query tree ai).files.length ≤ 15
    ∧ (Ai.extractMentionedFiles query tree = [] → ai = .err →
        Ai.analyzeFileSelection query tree ai = aiFallbackResult)
    ∧ (∀ r, Ai.extractMentionedFiles query tree = [] → ai = .ok none r →
        Ai.analyzeFileSelection query tree ai = aiFallbackResult)
    ∧ ((Ai.analyzeFileSelection query tree ai).tier = "fallback" →
        (Ai.analyzeFileSelection query tree ai).files ≠ [])
    ∧ (ChatRoute.selectRelevantFiles query tree ai).files.length ≤ 15
    ∧ (Ai.extractMentionedFiles query tree = [] → ai = .err →
        ChatRoute.selectRelevantFiles query tree ai =
          { files := ["README.md", "package.json"],
            reason := "Fallback to default files" }) := by
  unfold Ai.analyzeFileSelection ChatRoute.selectRelevantFiles
    ChatRoute.findMentionedFiles
  by_cases hm : (Ai.extractMentionedFiles query tree).length > 0
  · rw [if_pos hm, if_pos hm]
    refine ⟨Or.inl rfl, ?_, ?_, ?_, by simp, ?_, ?_⟩
    · simpa [List.length_take] using min_le_left 15 _
    · intro h; simp [h] at hm
    · intro r h; simp [h] at hm
    · simpa [List.length_take] using min_le_left 15 _
    · intro h; simp [h] at hm
  · rw [if_neg hm, if_neg hm]
    cases ai with
    | err =>
      refine ⟨Or.inr (Or.inr rfl), by decide, fun _ _ => rfl, ?_, by decide,
        by decide, fun _ _ => rfl⟩
      intro r _ h
      cases h
    | ok fs r =>
      cases fs with
      | none =>
        refine ⟨Or.inr (Or.inr rfl), ?_, ?_, fun r' _ _ => rfl, ?_, by simp, ?_⟩
        · simp
        · intro _ h; cases h
        · intro _; simp
        · intro _ h; cases h
      | some l =>
        refine ⟨Or.inr (Or.inl rfl), ?_, ?_, ?_, by simp, ?_, ?_⟩
        · simpa [List.length_take] using min_le_left 15 _
        · intro _ h; cases h
        · intro r' _ h; cases h
        · simpa [List.length_take] using min_le_left 15 _
        · intro _ h; cases h

/-- Witness for C2: at a concrete failing model call the selector
returns the fixed fallback. -/
theorem C2_selector_total_witness :
    Ai.analyzeFileSelection "hello" "" AIOutcome.err = aiFallbackResult
    ∧ aiFallbackResult.files ≠ [] := by
  have h := C2_selector_total "hello" "" AIOutcome.err
  exact ⟨h.2.2.1 (by decide) rfl, by decide⟩

/-! ## C3 — the context assembler -/

namespace Tokens

/-- The files the assembler actually considers: path/content pairs of
the records with truthy content (the loop `continue`s past the rest). -/
def contentPairs : List FileRec → List (String × String)
  | [] => []
  | f :: rest =>
    match f.content with
    | some c => if c = "" then contentPairs rest else (f.path, c) :: contentPairs rest
    | none => contentPairs rest

/-- Spec-side restatement of the (amended) claim: append whole blocks
while they fit; on the first block that would exceed the budget compute
the allowance `budget − total − 100`, and either (allowance > 500)
append the `truncateToTokenLimit` prefix of that file marked truncated
and stop, or mark that file alone as skipped and stop. -/
def assembleGo (fpGt : Int → Nat → Bool) (maxTokens : Nat) :
    List (String × String) → String → Nat → List (String × Bool) → BuildRes
  | [], ctx, tot, inc => ⟨ctx, tot, inc, []⟩
  | (p, c) :: rest, ctx, tot, inc =>
    let header := "\n--- FILE: " ++ p ++ " ---\n"
    let block := header ++ c ++ "\n"
    let cost := estimateTokens block
    if tot + cost > maxTokens then
      let allowance : Int := (maxTokens : Int) - (tot : Int) - 100
      if allowance > 500 then
        ⟨ctx ++ header ++ (truncateToTokenLimit fpGt c allowance.toNat).text ++ "\n",
          tot, inc ++ [(p, true)], []⟩
      else ⟨ctx, tot, inc, [p]⟩
    else assembleGo fpGt maxTokens rest (ctx ++ block) (tot + cost) (inc ++ [(p, false)])

def contextAssemblySpec (fpGt : Int → Nat → Bool) (files : List FileRec)
    (maxTokens : Nat) : BuildRes :=
  assembleGo fpGt maxTokens (contentPairs files) "" 0 []

theorem buildCtxGo_eq_spec (fpGt : Int → Nat → Bool) (maxTokens : Nat)
    (files : List FileRec) (ctx : String) (tot : Nat)
    (inc : List (String × Bool)) (skip : List String) :
    buildCtxGo fpGt maxTokens files ctx tot inc skip =
      { context := (assembleGo fpGt maxTokens (contentPairs files) ctx tot inc).context,
        totalTokens := (assembleGo fpGt maxTokens (contentPairs files) ctx tot inc).totalTokens,
        includedFiles := (assembleGo fpGt maxTokens (contentPairs files) ctx tot inc).includedFiles,
        skippedFiles := skip ++ (assembleGo fpGt maxTokens (contentPairs files) ctx tot inc).skippedFiles } := by
  induction files generalizing ctx tot inc skip with
  | nil => simp [buildCtxGo, contentPairs, assembleGo]
  | cons f rest ih =>
    cases hc : f.content with
    | none => simpa [buildCtxGo, contentPairs, hc] using ih ctx tot inc skip
    | some c =>
      by_cases hce : c = ""
      · simpa [buildCtxGo, contentPairs, hc, hce] using ih ctx tot inc skip
      · simp only [buildCtxGo, contentPairs, hc, if_neg hce, assembleGo]
        split
        · split
          · simp
          · simp
        · exact ih _ _ _ _

theorem assembleGo_skipped_short (fpGt : Int → Nat → Bool) (maxTokens : Nat)
    (pairs : List (String × String)) (ctx : String) (tot : Nat)
    (inc : List (String × Bool)) :
    (assembleGo fpGt maxTokens pairs ctx tot inc).skippedFiles.length ≤ 1 := by
  induction pairs generalizing ctx tot inc with
  | nil => simp [assembleGo]
  | cons pc rest ih =>
    obtain ⟨p, c⟩ := pc
    simp only [assembleGo]
    split
    · split
      · simp
      · simp
    · exact ih _ _ _

end Tokens

/-- **C3 (amended)** The assembler equals the spec-side recursion: it
appends whole blocks (header + body + newline, at 4 characters per
estimated token) while they fit; on the first block that would exceed
the budget it computes the allowance `budget − total − 100` tokens, and
if that exceeds 500 it appends the `truncateToTokenLimit` prefix of
that file's content (marked truncated, with the truncation marker
whenever the content exceeds the allowance) and stops, otherwise it
marks *that file alone* as skipped and stops — subsequent files are
neither assembled nor marked.  Records with absent or empty content
are passed over unmarked.  In particular at most one file is ever
marked skipped. -/
theorem C3_assembler_spec (fpGt : Int → Nat → Bool) (files : List FileRec)
    (maxTokens : Nat) :
    Tokens.buildContextWithLimit fpGt files maxTokens =
      Tokens.contextAssemblySpec fpGt files maxTokens
    ∧ (Tokens.buildContextWithLimit fpGt files maxTokens).skippedFiles.length ≤ 1 := by
  constructor
  · rw [Tokens.buildContextWithLimit, Tokens.buildCtxGo_eq_spec,
      Tokens.contextAssemblySpec]
    simp
  · rw [Tokens.buildContextWithLimit, Tokens.buildCtxGo_eq_spec]
    simpa using Tokens.assembleGo_skipped_short fpGt maxTokens _ _ _ _

/-- A 400-character file: its block (17-char header + 400 + 1) costs
105 estimated tokens. -/
def c3BigFile : FileRec :=
  { path := "a", content := some (String.mk (List.replicate 400 'x')) }

def c3Demo : List FileRec := [c3BigFile, { path := "b", content := some "y" }]

set_option maxRecDepth 8000 in
/-- **C3 counterexample** Against a budget of 100 tokens the first
file's block (105 tokens) overflows with allowance 0 ≤ 500, so the
claim says both `"a"` and the subsequent `"b"` are marked skipped; the
code marks only `"a"` — `"b"` appears in neither the skipped nor the
included list. -/
theorem C3_counterexample :
    (Tokens.buildContextWithLimit (fun _ _ => false) c3Demo 100).skippedFiles = ["a"]
    ∧ "b" ∉ (Tokens.buildContextWithLimit (fun _ _ => false) c3Demo 100).skippedFiles
    ∧ (Tokens.buildContextWithLimit (fun _ _ => false) c3Demo 100).includedFiles = [] := by
  refine ⟨?_, ?_, ?_⟩ <;> decide

/-! ## C4 — tree pruning invariants -/

/-- All nodes of a forest, in rendering (preorder) order. -/
def forestNodes : List TreeNode → List TreeNode
  | [] => []
  | .mk n p t s ch :: rest => .mk n p t s ch :: (forestNodes ch ++ forestNodes rest)
termination_by l => sizeOf l
decreasing_by all_goals (simp_wf; try omega)

/-- All node names of a forest, in rendering (preorder) order. -/
def forestNames : List TreeNode → List String
  | [] => []
  | .mk n _ _ _ ch :: rest => n :: (forestNames ch ++ forestNames rest)
termination_by l => sizeOf l
decreasing_by all_goals (simp_wf; try omega)

/-- Height of a forest: length of the longest nesting chain (0 for an
empty forest), i.e. one more than the largest 0-based node depth. -/
def forestHeight : List TreeNode → Nat
  | [] => 0
  | .mk _ _ _ _ ch :: rest => max (1 + forestHeight ch) (forestHeight rest)

theorem mem_forestNodes_iff (t : TreeNode) (L : List TreeNode) :
    t ∈ forestNodes L ↔ ∃ u ∈ L, t = u ∨ t ∈ forestNodes u.children := by
  induction L with
  | nil => simp [forestNodes]
  | cons u rest ih =>
    obtain ⟨n, p, ty, s, ch⟩ := u
    rw [forestNodes]
    simp only [List.mem_cons, List.mem_append, ih]
    constructor
    · rintro (rfl | h | ⟨v, hv, hd⟩)
      · exact ⟨_, Or.inl rfl, Or.inl rfl⟩
      · exact ⟨_, Or.inl rfl, Or.inr h⟩
      · exact ⟨v, Or.inr hv, hd⟩
    · rintro ⟨v, hv | hv, hd⟩
      · subst hv
        rcases hd with rfl | hd
        · exact Or.inl rfl
        · exact Or.inr (Or.inl hd)
      · exact Or.inr (Or.inr ⟨v, hv, hd⟩)

theorem forestHeight_le_iff (L : List TreeNode) (k : Nat) :
    forestHeight L ≤ k ↔ ∀ u ∈ L, 1 + forestHeight u.children ≤ k := by
  induction L with
  | nil => simp [forestHeight]
  | cons u rest ih =>
    obtain ⟨n, p, ty, s, ch⟩ := u
    rw [forestHeight]
    simp only [Nat.max_le, ih, List.mem_cons]
    constructor
    · rintro ⟨h1, h2⟩ v (rfl | hv)
      · exact h1
      · exact h2 v hv
    · intro h
      exact ⟨h _ (Or.inl rfl), fun v hv => h v (Or.inr hv)⟩

/-- Nodes of a merge-sorted forest are the nodes of the original. -/
theorem mem_forestNodes_mergeSort (t : TreeNode) (le : TreeNode → TreeNode → Bool)
    (L : List TreeNode) :
    t ∈ forestNodes (L.mergeSort le) ↔ t ∈ forestNodes L := by
  rw [mem_forestNodes_iff, mem_forestNodes_iff]
  constructor <;> rintro ⟨u, hu, hd⟩
  · exact ⟨u, (List.mergeSort_perm L le).mem_iff.1 hu, hd⟩
  · exact ⟨u, (List.mergeSort_perm L le).mem_iff.2 hu, hd⟩

theorem forestHeight_mergeSort (le : TreeNode → TreeNode → Bool)
    (L : List TreeNode) (k : Nat) :
    forestHeight (L.mergeSort le) ≤ k ↔ forestHeight L ≤ k := by
  rw [forestHeight_le_iff, forestHeight_le_iff]
  exact ⟨fun h u hu => h u ((List.mergeSort_perm L le).mem_iff.2 hu),
    fun h u hu => h u ((List.mergeSort_perm L le).mem_iff.1 hu)⟩

theorem gh_buildFileTree_no_skip_dir (listing : String → Option (List RawItem))
    (lc : String → String → Bool) (maxDepth : Nat) :
    ∀ fuel depth path, maxDepth + 1 - depth ≤ fuel →
      ∀ t ∈ forestNodes (Gh.buildFileTree listing lc path depth maxDepth),
        t.type = "dir" → t.name ∉ Gh.skipDirs := by
  intro fuel
  induction fuel with
  | zero =>
    intro depth path hf t ht
    rw [Gh.buildFileTree, if_pos (by omega)] at ht
    simp [forestNodes] at ht
  | succ fuel ih =>
    intro depth path hf t ht htype
    rw [Gh.buildFileTree] at ht
    split at ht
    · simp [forestNodes] at ht
    · split at ht
      · simp [forestNodes] at ht
      · rename_i items heq
        rw [mem_forestNodes_mergeSort, mem_forestNodes_iff] at ht
        obtain ⟨u, hu, hd⟩ := ht
        obtain ⟨it, hit, hmk⟩ := List.mem_filterMap.1 hu
        split at hmk
        · cases hmk
        · rename_i hguard
          cases hmk
          rcases hd with rfl | hd
          · simp only [TreeNode.type] at htype
            simp only [TreeNode.name]
            intro hskip
            exact hguard ⟨htype, hskip⟩
          · simp only [TreeNode.children] at hd
            split at hd
            · exact ih (depth + 1) it.path (by omega) t hd htype
            · simp [forestNodes] at hd

theorem gh_buildFileTree_height (listing : String → Option (List RawItem))
    (lc : String → String → Bool) (maxDepth : Nat) :
    ∀ fuel depth path, maxDepth + 1 - depth ≤ fuel →
      forestHeight (Gh.buildFileTree listing lc path depth maxDepth) ≤
        maxDepth + 1 - depth := by
  intro fuel
  induction fuel with
  | zero =>
    intro depth path hf
    rw [Gh.buildFileTree, if_pos (by omega)]
    simp [forestHeight]
  | succ fuel ih =>
    intro depth path hf
    rw [Gh.buildFileTree]
    split
    · simp [forestHeight]
    · split
      · simp [forestHeight]
      · rename_i hdep items heq
        rw [forestHeight_mergeSort, forestHeight_le_iff]
        intro u hu
        obtain ⟨it, hit, hmk⟩ := List.mem_filterMap.1 hu
        split at hmk
        · cases hmk
        · cases hmk
          simp only [TreeNode.children]
          split
          · rename_i hcond
            have := ih (depth + 1) it.path (by omega)
            omega
          · simp [forestHeight]
            omega

theorem fetch_buildFileTree_no_skip_dir (listing : String → Option (List RawItem))
    (lc : String → String → Bool) :
    ∀ fuel depth path, 5 - depth ≤ fuel →
      ∀ t ∈ forestNodes (FetchRoute.buildFileTree listing lc path depth),
        t.type = "dir" → t.name ∉ FetchRoute.skipDirs := by
  intro fuel
  induction fuel with
  | zero =>
    intro depth path hf t ht
    rw [FetchRoute.buildFileTree, if_pos (by omega)] at ht
    simp [forestNodes] at ht
  | succ fuel ih =>
    intro depth path hf t ht htype
    rw [FetchRoute.buildFileTree] at ht
    split at ht
    · simp [forestNodes] at ht
    · split at ht
      · simp [forestNodes] at ht
      · rename_i items heq
        rw [mem_forestNodes_mergeSort, mem_forestNodes_iff] at ht
        obtain ⟨u, hu, hd⟩ := ht
        obtain ⟨it, hit, hmk⟩ := List.mem_filterMap.1 hu
        split at hmk
        · cases hmk
        · rename_i hguard
          cases hmk
          rcases hd with rfl | hd
          · simp only [TreeNode.type] at htype
            simp only [TreeNode.name]
            intro hskip
            exact hguard ⟨htype, hskip⟩
          · simp only [TreeNode.children] at hd
            split at hd
            · exact ih (depth + 1) it.path (by omega) t hd htype
            · simp [forestNodes] at hd

theorem fetch_buildFileTree_height (listing : String → Option (List RawItem))
    (lc : String → String → Bool) :
    ∀ fuel depth path, 5 - depth ≤ fuel →
      forestHeight (FetchRoute.buildFileTree listing lc path depth) ≤ 5 - depth := by
  intro fuel
  induction fuel with
  | zero =>
    intro depth path hf
    rw [FetchRoute.buildFileTree, if_pos (by omega)]
    simp [forestHeight]
  | succ fuel ih =>
    intro depth path hf
    rw [FetchRoute.buildFileTree]
    split
    · simp [forestHeight]
    · split
      · simp [forestHeight]
      · rename_i hdep items heq
        rw [forestHeight_mergeSort, forestHeight_le_iff]
        intro u hu
        obtain ⟨it, hit, hmk⟩ := List.mem_filterMap.1 hu
        split at hmk
        · cases hmk
        · cases hmk
          simp only [TreeNode.children]
          split
          · rename_i hcond
            have := ih (depth + 1) it.path (by omega)
            omega
          · simp [forestHeight]
            omega

/-- **C4 (amended)** Trees from the fetch route's `buildFileTree`
contain no directory node named in its nine-name skip set and have
height at most 5 (every node's 0-based depth is at most the cap 4);
trees from the helper module's `buildFileTree` contain no directory
node named in *its* skip set — which lists only seven names, omitting
`.cache` and `coverage` — and have height at most `maxDepth + 1`.
(File-typed nodes are never skipped by either version; the skip set
applies to directories, as the spec's parenthetical says.) -/
theorem C4_pruning (listing : String → Option (List RawItem))
    (lc : String → String → Bool) (path : String) (depth maxDepth : Nat) :
    (∀ t ∈ forestNodes (FetchRoute.buildFileTree listing lc path depth),
        t.type = "dir" → t.name ∉ FetchRoute.skipDirs)
    ∧ (∀ t ∈ forestNodes (Gh.buildFileTree listing lc path depth maxDepth),
        t.type = "dir" → t.name ∉ Gh.skipDirs)
    ∧ forestHeight (FetchRoute.buildFileTree listing lc path 0) ≤ 5
    ∧ forestHeight (Gh.buildFileTree listing lc path 0 maxDepth) ≤ maxDepth + 1 :=
  ⟨fetch_buildFileTree_no_skip_dir listing lc (5 - depth) depth path (le_refl _),
   gh_buildFileTree_no_skip_dir listing lc maxDepth (maxDepth + 1 - depth) depth path (le_refl _),
   fetch_buildFileTree_height listing lc 5 0 path (by omega),
   by simpa using gh_buildFileTree_height listing lc maxDepth (maxDepth + 1) 0 path (by omega)⟩

/-- A repository whose root contains a `.cache` directory. -/
def c4Listing : String → Option (List RawItem) := fun p =>
  if p = "" then some [{ name := ".cache", path := ".cache", type := "dir", size := 0 }]
  else some []

/-- **C4 counterexample** The helper module's tree acquisition keeps a
directory named `.cache` (its skip set omits `.cache` and `coverage`),
so the claimed nine-name skip invariant fails on its trees. -/
theorem C4_counterexample :
    (Gh.buildFileTree c4Listing (fun _ _ => true) "" 0 5).map TreeNode.name = [".cache"]
    ∧ ".cache" ∈ FetchRoute.skipDirs := by
  constructor
  · rw [Gh.buildFileTree]
    simp [c4Listing, Gh.skipDirs, TreeNode.name]
  · decide

/-- A repository whose root contains one ordinary directory. -/
def c4WitListing : String → Option (List RawItem) := fun p =>
  if p = "" then some [{ name := "src", path := "src", type := "dir", size := 0 }]
  else none

/-- Witness for C4: on a concrete repository the directory node `src`
is in the tree, and the theorem applied to it yields that its name is
not skip-listed. -/
theorem C4_pruning_witness :
    TreeNode.mk "src" "src" "dir" 0 [] ∈
      forestNodes (Gh.buildFileTree c4WitListing (fun _ _ => true) "" 0 5)
    ∧ (TreeNode.mk "src" "src" "dir" 0 []).name ∉ Gh.skipDirs := by
  have hmem : TreeNode.mk "src" "src" "dir" 0 [] ∈
      forestNodes (Gh.buildFileTree c4WitListing (fun _ _ => true) "" 0 5) := by
    simp [Gh.buildFileTree, c4WitListing, Gh.skipDirs, forestNodes]
  exact ⟨hmem,
    (C4_pruning c4WitListing (fun _ _ => true) "" 0 5).2.1 _ hmem rfl⟩

/-! ## C8 — tree rendering round-trip -/

/-- Names that render safely: nonempty, no embedded newline (GitHub
path components satisfy both). -/
def goodName (s : String) : Bool := !s.data.isEmpty && !s.data.contains '\n'

def goodForest : List TreeNode → Bool
  | [] => true
  | .mk n _ _ _ ch :: rest => goodName n && goodForest ch && goodForest rest
termination_by l => sizeOf l
decreasing_by all_goals (simp_wf; try omega)

/-- Continuation prefixes consist of `'│'` and `' '` only. -/
def goodPrefix (pref : String) : Bool :=
  pref.data.all fun c => c = '│' ∨ c = ' '

/-- Re-parsing a rendering: the name captured by `[├└]── (.+)$` on each
line, in order — the extraction step of `extractMentionedFiles`. -/
def extractAllNames (s : String) : List String :=
  (JsStr.splitNl s.data).filterMap fun l => (Ai.treeLineName l).map String.mk

theorem splitNl_append_line (l t : List Char) (hl : '\n' ∉ l) :
    JsStr.splitNl (l ++ '\n' :: t) = l :: JsStr.splitNl t := by
  induction l with
  | nil => simp [JsStr.splitNl]
  | cons c l' ih =>
    simp only [List.mem_cons, not_or] at hl
    have hc : c ≠ '\n' := fun h => hl.1 h.symm
    rw [List.cons_append, JsStr.splitNl, if_neg hc, ih hl.2]

theorem treeLineName_rendered (pref name : List Char) (h : Char)
    (hpref : ∀ c ∈ pref, c = '│' ∨ c = ' ') (hh : h = '├' ∨ h = '└')
    (hname : name ≠ []) :
    Ai.treeLineName (pref ++ h :: '─' :: '─' :: ' ' :: name) = some name := by
  induction pref with
  | nil =>
    rw [List.nil_append, Ai.treeLineName,
      if_pos ⟨hh, by simp, by simpa using hname⟩]
    simp
  | cons c pref' ih =>
    have hc := hpref c (List.mem_cons_self c pref')
    rw [List.cons_append, Ai.treeLineName, if_neg, ih]
    · exact fun d hd => hpref d (List.mem_cons_of_mem c hd)
    · rintro ⟨hcc, -⟩
      rcases hc with rfl | rfl <;> rcases hcc with h' | h' <;> cases h'

theorem string_mk_data (s : String) : String.mk s.data = s := rfl

theorem if_treeToString (ch : List TreeNode) (q : String) :
    (if ch.length > 0 then Gh.treeToString ch q else "") = Gh.treeToString ch q := by
  cases ch with
  | nil => simp [Gh.treeToString]
  | cons a l => simp

theorem render_extract (forest : List TreeNode) (pref : String) (rest : List Char)
    (hg : goodForest forest = true) (hp : goodPrefix pref = true) :
    (JsStr.splitNl ((Gh.treeToString forest pref).data ++ rest)).filterMap
        (fun l => (Ai.treeLineName l).map String.mk)
      = forestNames forest ++
        (JsStr.splitNl rest).filterMap (fun l => (Ai.treeLineName l).map String.mk) := by
  suffices H : ∀ n (forest : List TreeNode), sizeOf forest ≤ n →
      ∀ (pref : String) (rest : List Char), goodForest forest = true →
        goodPrefix pref = true →
        (JsStr.splitNl ((Gh.treeToString forest pref).data ++ rest)).filterMap
            (fun l => (Ai.treeLineName l).map String.mk)
          = forestNames forest ++
            (JsStr.splitNl rest).filterMap (fun l => (Ai.treeLineName l).map String.mk) from
    H (sizeOf forest) forest (le_refl _) pref rest hg hp
  intro n
  induction n with
  | zero =>
    intro forest hsz
    cases forest with
    | nil =>
      intro pref rest _ _
      simp [Gh.treeToString, forestNames]
    | cons a l => simp at hsz
  | succ n ih =>
    intro forest hsz pref rest hg hp
    cases forest with
    | nil => simp [Gh.treeToString, forestNames]
    | cons node rest' =>
      obtain ⟨nm, p, ty, s, ch⟩ := node
      rw [goodForest] at hg
      simp only [Bool.and_eq_true] at hg
      obtain ⟨⟨hn, hch⟩, hrest'⟩ := hg
      rw [Gh.treeToString]
      simp only [if_treeToString]
      rw [forestNames]
      have hszch : sizeOf ch ≤ n := by
        simp at hsz
        omega
      have hszrest : sizeOf rest' ≤ n := by
        simp at hsz
        omega
      have hnoNl : '\n' ∉ (pref.data ++
          (if rest'.isEmpty then "└── " else "├── ").data ++ nm.data) := by
        simp only [List.mem_append, not_or]
        refine ⟨⟨?_, ?_⟩, ?_⟩
        · intro hmem
          simp only [goodPrefix, List.all_eq_true, decide_eq_true_eq] at hp
          rcases hp '\n' hmem with h | h <;> cases h
        · by_cases hre : rest'.isEmpty <;> simp [hre] <;> decide
        · simp only [goodName, Bool.and_eq_true, Bool.not_eq_true'] at hn
          have h2 := hn.2
          simp at h2
          exact h2
      have hgoodpref2 : goodPrefix (pref ++ if rest'.isEmpty then "    " else "│   ") = true := by
        simp only [goodPrefix, String.data_append, List.all_append, Bool.and_eq_true]
        refine ⟨hp, ?_⟩
        by_cases hre : rest'.isEmpty <;> simp [hre] <;> decide
      calc (JsStr.splitNl (((pref ++ (if rest'.isEmpty then "└── " else "├── ") ++ nm ++ "\n" ++
              Gh.treeToString ch (pref ++ if rest'.isEmpty then "    " else "│   ") ++
              Gh.treeToString rest' pref)).data ++ rest)).filterMap
            (fun l => (Ai.treeLineName l).map String.mk)
          = (JsStr.splitNl ((pref.data ++
              (if rest'.isEmpty then "└── " else "├── ").data ++ nm.data) ++ '\n' ::
              ((Gh.treeToString ch (pref ++ if rest'.isEmpty then "    " else "│   ")).data ++
                ((Gh.treeToString rest' pref).data ++ rest)))).filterMap
            (fun l => (Ai.treeLineName l).map String.mk) := by
            simp only [String.data_append]
            simp [List.append_assoc]
        _ = ((pref.data ++ (if rest'.isEmpty then "└── " else "├── ").data ++ nm.data) ::
              JsStr.splitNl ((Gh.treeToString ch (pref ++ if rest'.isEmpty then "    " else "│   ")).data ++
                ((Gh.treeToString rest' pref).data ++ rest))).filterMap
            (fun l => (Ai.treeLineName l).map String.mk) := by
            rw [splitNl_append_line _ _ hnoNl]
        _ = nm :: (forestNames ch ++ (forestNames rest' ++
              (JsStr.splitNl rest).filterMap (fun l => (Ai.treeLineName l).map String.mk))) := by
            rw [List.filterMap_cons]
            have hline : Ai.treeLineName (pref.data ++
                (if rest'.isEmpty then "└── " else "├── ").data ++ nm.data) = some nm.data := by
              have hprefc : ∀ c ∈ pref.data, c = '│' ∨ c = ' ' := by
                simp only [goodPrefix, List.all_eq_true, decide_eq_true_eq] at hp
                exact hp
              have hnm : nm.data ≠ [] := by
                simp only [goodName, Bool.and_eq_true, Bool.not_eq_true'] at hn
                simpa using hn.1
              by_cases hre : rest'.isEmpty
              · simpa [hre, List.append_assoc] using
                  treeLineName_rendered pref.data nm.data '└' hprefc (Or.inr rfl) hnm
              · simpa [hre, List.append_assoc] using
                  treeLineName_rendered pref.data nm.data '├' hprefc (Or.inl rfl) hnm
            rw [hline]
            rw [ih ch hszch _ _ hch hgoodpref2, ih rest' hszrest _ _ hrest' hp]
            simp [string_mk_data]
        _ = (nm :: (forestNames ch ++ forestNames rest')) ++
              (JsStr.splitNl rest).filterMap (fun l => (Ai.treeLineName l).map String.mk) := by
            simp [List.append_assoc]

/-- **C8** For every tree whose node names are nonempty and
newline-free (true of all GitHub tree nodes), re-parsing the
connector-prefixed lines of the text rendering — extracting the name
after each `├── `/`└── ` marker — recovers exactly the sequence of node
names in rendering order. -/
theorem C8_render_roundtrip (forest : List TreeNode)
    (hg : goodForest forest = true) :
    extractAllNames (Gh.treeToString forest "") = forestNames forest := by
  have h := render_extract forest "" [] hg (by decide)
  rw [extractAllNames]
  simpa [JsStr.splitNl, Ai.treeLineName] using h

/-- A concrete two-level forest. -/
def c8Forest : List TreeNode :=
  [TreeNode.mk "src" "src" "dir" 0 [TreeNode.mk "a.js" "src/a.js" "file" 3 []],
   TreeNode.mk "readme.md" "readme.md" "file" 5 []]

/-- Witness for C8 at a concrete forest. -/
theorem C8_render_roundtrip_witness :
    goodForest c8Forest = true
    ∧ extractAllNames (Gh.treeToString c8Forest "") = forestNames c8Forest := by
  have hg : goodForest c8Forest = true := by
    simp [c8Forest, goodForest, goodName]
  exact ⟨hg, C8_render_roundtrip c8Forest hg⟩

/-! ## C1 — the streaming lifecycle -/

theorem getLast?_cons_append_pair {α : Type} (a x y : α) (l : List α) :
    (a :: (l ++ [x, y])).getLast? = some y := by
  have h : a :: (l ++ [x, y]) = (a :: (l ++ [x])) ++ [y] := by simp
  rw [h, List.getLast?_append]
  rfl

theorem getLast?_cons_append_one {α : Type} (a x : α) (l : List α) :
    (a :: (l ++ [x])).getLast? = some x := by
  have h : a :: (l ++ [x]) = (a :: l) ++ [x] := by simp
  rw [h, List.getLast?_append]
  rfl

theorem isStatus_not_isTerminal (e : StreamEvent) (h : e.isStatus = true) :
    e.isTerminal = false := by
  cases e <;> simp_all [StreamEvent.isStatus, StreamEvent.isTerminal]

theorem filter_terminal_of_status (l : List StreamEvent)
    (h : ∀ e ∈ l, e.isStatus = true) : l.filter StreamEvent.isTerminal = [] := by
  rw [List.filter_eq_nil]
  intro e he
  simp [isStatus_not_isTerminal e (h e he)]

theorem fetchFilesGo_events_status (o : String → GhContent) (total : Nat) :
    ∀ n (l : List String) (i : Nat), l.length ≤ n →
      ∀ e ∈ (ScanRoute.fetchFilesGo o total i l).1, e.isStatus = true := by
  intro n
  induction n with
  | zero =>
    intro l i hl e he
    rw [List.length_eq_zero.1 (Nat.le_zero.1 hl)] at he
    simp [ScanRoute.fetchFilesGo] at he
  | succ n ih =>
    intro l i hl e he
    match l with
    | [] => simp [ScanRoute.fetchFilesGo] at he
    | p :: rest =>
      rw [ScanRoute.fetchFilesGo] at he
      simp only [List.mem_cons] at he
      rcases he with rfl | he
      · rfl
      · exact ih ((p :: rest).drop 5) (i + 5) (by simp at hl ⊢; omega) e he

/-- The scan handler's success trace: status events, then the single
`complete`, then one trailing `status "Complete" 100`. -/
theorem scanHandler_success_shape (filePaths : List String)
    (o : String → GhContent) (ai : Option (List Finding)) (ts : String)
    (h : ScanRoute.codeFiles filePaths ≠ []) :
    ∃ pre fnd grp sm sc tf,
      (ScanRoute.scanHandler filePaths o ai ts).1
        = pre ++ [StreamEvent.complete fnd grp sm sc tf,
            StreamEvent.status "Complete" 100]
      ∧ ∀ e ∈ pre, e.isStatus = true := by
  rw [ScanRoute.scanHandler]
  rw [if_neg (by simpa [List.isEmpty_iff] using h)]
  dsimp only
  set F := ScanRoute.filteredFindings (ScanRoute.deduplicateFindings
    (ScanRoute.runPatternScan (ScanRoute.fetchFiles o (ScanRoute.codeFiles filePaths)).2
      ++ ScanRoute.runAIScan ai ts)) with hF
  refine ⟨[StreamEvent.status
      ("Scanning " ++ toString (ScanRoute.codeFiles filePaths).length ++ " files...") 10]
      ++ (ScanRoute.fetchFiles o (ScanRoute.codeFiles filePaths)).1
      ++ [StreamEvent.status "Running pattern-based scan..." 40,
          StreamEvent.status "Running AI analysis..." 60,
          StreamEvent.status "Generating summary..." 90],
    F, ScanRoute.groupBySeverity F, ScanRoute.generateSummary F,
    (ScanRoute.codeFiles filePaths).length, F.length, ?_, ?_⟩
  · conv_rhs => rw [List.append_assoc]
    rfl
  · intro e he
    simp only [List.mem_append, List.mem_cons, List.not_mem_nil, or_false] at he
    rcases he with (rfl | he) | rfl | rfl | rfl
    · rfl
    · exact fetchFilesGo_events_status o _ _ _ 0 (le_refl _) e he
    · rfl
    · rfl
    · rfl

/-- **C1 counterexample** On a concrete successful scan the single
terminal `complete` is followed by a further `status` event before the
channel closes, refuting "no further event of any type is emitted
after the terminal event" and "the scan path's event sequence matches
status* followed by a single complete". -/
theorem C1_counterexample :
    ∃ pre fnd grp sm sc tf,
      (ScanRoute.scanHandler ["a.js"] (fun _ => GhContent.failed "nope") none "0").1
        = pre ++ [StreamEvent.complete fnd grp sm sc tf,
            StreamEvent.status "Complete" 100]
      ∧ (StreamEvent.complete fnd grp sm sc tf).isTerminal = true
      ∧ (StreamEvent.status "Complete" 100).isTerminal = false := by
  obtain ⟨pre, fnd, grp, sm, sc, tf, heq, -⟩ :=
    scanHandler_success_shape ["a.js"] (fun _ => GhContent.failed "nope") none "0"
      (by decide)
  exact ⟨pre, fnd, grp, sm, sc, tf, heq, rfl, rfl⟩

/-- **C1 (amended)** For every scan or chat request (over all modelled
outcomes) exactly one terminal event is emitted and the channel is
closed at the end of the handler (`finally`); the chat trace's terminal
event is its final event; the scan failure path is the single `error`
event; but on the scan success path the terminal `complete` is followed
by exactly one trailing `status "Complete" 100` event before the close
— the scan sequence is status* complete status, not status* complete. -/
theorem C1_stream_lifecycle (filePaths : List String) (o : String → GhContent)
    (ai : Option (List Finding)) (ts : String) (query tree : String)
    (aiSel : AIOutcome) (o2 : String → GhContent) (so : ChatRoute.StreamOutcome) :
    (ScanRoute.scanHandler filePaths o ai ts).2 = true
    ∧ (ChatRoute.chatHandler query tree aiSel o2 so).2 = true
    ∧ ((ScanRoute.scanHandler filePaths o ai ts).1.filter StreamEvent.isTerminal).length = 1
    ∧ ((ChatRoute.chatHandler query tree aiSel o2 so).1.filter StreamEvent.isTerminal).length = 1
    ∧ (∃ e, (ChatRoute.chatHandler query tree aiSel o2 so).1.getLast? = some e
        ∧ e.isTerminal = true)
    ∧ (ScanRoute.codeFiles filePaths = [] →
        (ScanRoute.scanHandler filePaths o ai ts).1
          = [StreamEvent.error "No code files found to scan"])
    ∧ (ScanRoute.codeFiles filePaths ≠ [] →
        ∃ pre fnd grp sm sc tf,
          (ScanRoute.scanHandler filePaths o ai ts).1
            = pre ++ [StreamEvent.complete fnd grp sm sc tf,
                StreamEvent.status "Complete" 100]
          ∧ ∀ e ∈ pre, e.isStatus = true) := by
  refine ⟨?_, ?_, ?_, ?_, ?_, ?_, scanHandler_success_shape filePaths o ai ts⟩
  · rw [ScanRoute.scanHandler]
    split <;> rfl
  · unfold ChatRoute.chatHandler
    rcases so with m | ⟨chunks, thenErr⟩
    · rfl
    · cases thenErr <;> rfl
  · by_cases h : ScanRoute.codeFiles filePaths = []
    · rw [ScanRoute.scanHandler, if_pos (by simpa [List.isEmpty_iff] using h)]
      rfl
    · obtain ⟨pre, fnd, grp, sm, sc, tf, heq, hpre⟩ :=
        scanHandler_success_shape filePaths o ai ts h
      rw [heq, List.filter_append, filter_terminal_of_status pre hpre]
      rfl
  · unfold ChatRoute.chatHandler
    rcases so with m | ⟨chunks, thenErr⟩
    · simp [List.filter_append, filter_terminal_of_status, StreamEvent.isTerminal,
        List.filter_map, Function.comp]
    · cases thenErr <;>
        simp [List.filter_append, StreamEvent.isTerminal, List.filter_map,
          Function.comp]
  · unfold ChatRoute.chatHandler
    rcases so with m | ⟨chunks, thenErr⟩
    · exact ⟨.error m, by simp [List.getLast?_append], rfl⟩
    · cases thenErr with
      | none => exact ⟨.done, getLast?_cons_append_pair _ _ _ _, rfl⟩
      | some m => exact ⟨.error m, getLast?_cons_append_one _ _ _, rfl⟩
  · intro h
    rw [ScanRoute.scanHandler, if_pos (by simpa [List.isEmpty_iff] using h)]

/-- Witness for C1 at concrete scan and chat inputs. -/
theorem C1_stream_lifecycle_witness :
    ((ScanRoute.scanHandler [] (fun _ => GhContent.failed "x") none "0").1
      = [StreamEvent.error "No code files found to scan"])
    ∧ ((ChatRoute.chatHandler "q" "" AIOutcome.err (fun _ => GhContent.failed "x")
        (.streamed ["hi"] none)).1.filter StreamEvent.isTerminal).length = 1 := by
  have h := C1_stream_lifecycle [] (fun _ => GhContent.failed "x") none "0"
    "q" "" AIOutcome.err (fun _ => GhContent.failed "x") (.streamed ["hi"] none)
  exact ⟨h.2.2.2.2.2.1 (by decide), h.2.2.2.1⟩

/-! ## C5 — Scenario B: the hardcoded API key line

The file content is an arbitrary sequence of newline-free lines around
the exact line `const apiKey = "sk-aaaaaaaaaaaaaaaaaaaaaaaa";` — the
claim's "file whose content contains the line".  Surrounding lines are
otherwise unconstrained: the quoted-string section of the api-key
pattern cannot cross a newline, so no match beginning on an earlier
line can overlap the target line's `apiKey` token, and the exec loop
always records the match at the token's offset 6. -/

namespace Rx

theorem mem_run_opt {p : Char → Bool} {s : List Char} {l : Nat}
    (h : l ∈ (Reg.opt p).run s) : l ≤ 1 := by
  cases s with
  | nil => simp only [Reg.run, List.mem_singleton] at h; omega
  | cons c rest =>
    simp only [Reg.run] at h
    split at h <;> simp at h <;> omega

/-- A star match pins each consumed character to the class. -/
theorem run_star_sat {p : Char → Bool} {s : List Char} {w : Nat}
    (h : w ∈ (Reg.star p).run s) (m : Nat) (hm : m < w) :
    ∃ c, s.get? m = some c ∧ p c :=
  maxRun_sat (lt_of_lt_of_le hm (mem_run_star h))

/-- A rep match pins each consumed character to the class. -/
theorem run_rep_sat {n : Nat} {p : Char → Bool} {s : List Char} {r : Nat}
    (h : r ∈ (Reg.rep n p).run s) (m : Nat) (hm : m < r) :
    ∃ c, s.get? m = some c ∧ p c :=
  maxRun_sat (lt_of_lt_of_le hm (mem_run_rep h).2)

end Rx

def targetLine : String := "const apiKey = \"sk-aaaaaaaaaaaaaaaaaaaaaaaa\";"

/-- Lines each followed by a newline (the part of the file before the
target line). -/
def joinLinesNl : List (List Char) → List Char
  | [] => []
  | l :: ps => l ++ '\n' :: joinLinesNl ps

/-- A newline then a line, repeated (the part after the target line). -/
def joinNlLines : List (List Char) → List Char
  | [] => []
  | l :: ps => '\n' :: (l ++ joinNlLines ps)

/-- A file consisting of `pre`, the target line, and `post`. -/
def c5Content (pre post : List (List Char)) : List Char :=
  joinLinesNl pre ++ (targetLine.data ++ joinNlLines post)

theorem splitNl_no_nl (l : List Char) (h : '\n' ∉ l) :
    JsStr.splitNl l = [l] := by
  induction l with
  | nil => rfl
  | cons c rest ih =>
    simp only [List.mem_cons, not_or] at h
    rw [JsStr.splitNl, if_neg (fun hc => h.1 hc.symm), ih h.2]

theorem splitNl_joinNlLines (post : List (List Char))
    (hpost : ∀ p ∈ post, '\n' ∉ p) :
    ∀ l, '\n' ∉ l → JsStr.splitNl (l ++ joinNlLines post) = l :: post := by
  induction post with
  | nil =>
    intro l hl
    rw [joinNlLines, List.append_nil, splitNl_no_nl l hl]
  | cons p ps ih =>
    intro l hl
    rw [joinNlLines, splitNl_append_line l _ hl,
      ih (fun q hq => hpost q (List.mem_cons_of_mem p hq)) p
        (hpost p (List.mem_cons_self p ps))]

theorem splitNl_joinLinesNl (pre : List (List Char)) (rest : List Char)
    (hpre : ∀ l ∈ pre, '\n' ∉ l) :
    JsStr.splitNl (joinLinesNl pre ++ rest) = pre ++ JsStr.splitNl rest := by
  induction pre with
  | nil => rfl
  | cons l ps ih =>
    rw [joinLinesNl, List.append_assoc, List.cons_append,
      splitNl_append_line l _ (hpre l (List.mem_cons_self l ps)),
      ih (fun q hq => hpre q (List.mem_cons_of_mem l hq)), List.cons_append]

theorem splitNl_c5Content (pre post : List (List Char))
    (hpre : ∀ l ∈ pre, '\n' ∉ l) (hpost : ∀ p ∈ post, '\n' ∉ p) :
    JsStr.splitNl (c5Content pre post) = pre ++ targetLine.data :: post := by
  rw [c5Content, splitNl_joinLinesNl pre _ hpre,
    splitNl_joinNlLines post hpost targetLine.data (by decide)]

theorem findLineGo_target (post : List (List Char)) :
    ∀ (pre : List (List Char)) (i cc : Nat),
      Security.findLineGo i cc (cc + (joinLinesNl pre).length + 6)
          (pre ++ targetLine.data :: post)
        = i + pre.length + 1 := by
  intro pre
  induction pre with
  | nil =>
    intro i cc
    rw [List.nil_append, Security.findLineGo, if_pos (by
      have h45 : targetLine.length = 45 := by decide
      simp [joinLinesNl]
      omega)]
    simp [joinLinesNl]
  | cons l ps ih =>
    intro i cc
    rw [List.cons_append, Security.findLineGo,
      if_neg (by simp [joinLinesNl]; omega)]
    have harg : cc + (joinLinesNl (l :: ps)).length + 6
        = (cc + l.length + 1) + (joinLinesNl ps).length + 6 := by
      simp [joinLinesNl]
      omega
    rw [harg, ih (i + 1) (cc + l.length + 1)]
    simp [List.length_cons]
    omega

theorem c5_char_at (pre post : List (List Char)) (i : Nat) (hi : i < 45) :
    (c5Content pre post).get? ((joinLinesNl pre).length + i) = targetLine.data.get? i := by
  rw [c5Content, List.get?_eq_getElem?,
    List.getElem?_append_right (by omega : (joinLinesNl pre).length ≤ (joinLinesNl pre).length + i)]
  have h45 : targetLine.data.length = 45 := by decide
  rw [show (joinLinesNl pre).length + i - (joinLinesNl pre).length = i by omega,
    List.getElem?_append_left (by omega), List.get?_eq_getElem?]

/-- Quote characters can occur anywhere in the surrounding lines, but
inside the target line only at its two string delimiters: a quote
position is strictly before the target line, one of the two delimiter
offsets, or at/after the newline that opens the `post` region. -/
theorem c5_quote_pos (pre post : List (List Char))
    (p : Nat) (c : Char) (hc : (c5Content pre post).get? p = some c)
    (hq : Security.quote2 c = true) :
    p < (joinLinesNl pre).length
      ∨ p = (joinLinesNl pre).length + 15
      ∨ p = (joinLinesNl pre).length + 43
      ∨ (joinLinesNl pre).length + 45 ≤ p := by
  by_cases h1 : p < (joinLinesNl pre).length
  · exact Or.inl h1
  · by_cases h2 : p < (joinLinesNl pre).length + 45
    · refine Or.inr ?_
      by_contra hno
      push_neg at hno
      obtain ⟨hn15, hn43, hn45⟩ := hno
      have hp : p = (joinLinesNl pre).length + (p - (joinLinesNl pre).length) := by
        omega
      rw [hp] at hc
      rw [c5_char_at pre post _ (by omega)] at hc
      have hne15 : p - (joinLinesNl pre).length ≠ 15 := by omega
      have hne43 : p - (joinLinesNl pre).length ≠ 43 := by omega
      have hmask : ∀ i, i < 45 → i ≠ 15 → i ≠ 43 →
          (targetLine.data.map Security.quote2).get? i = some false := by decide
      have hm := hmask (p - (joinLinesNl pre).length) (by omega) hne15 hne43
      rw [List.get?_eq_getElem?, List.getElem?_map, ← List.get?_eq_getElem?, hc] at hm
      simp only [Option.map_some'] at hm
      rw [hq] at hm
      cases hm
    · exact Or.inr (Or.inr (Or.inr (by omega)))

def c5Suffix : List Char :=
  ['a','p','i','K','e','y',' ','=',' ','\"','s','k','-',
   'a','a','a','a','a','a','a','a','a','a','a','a','a',
   'a','a','a','a','a','a','a','a','a','a','a','\"',';']

theorem c5Suffix_eq : targetLine.data.drop 6 = c5Suffix := by decide

set_option maxRecDepth 8000 in
set_option maxHeartbeats 1000000 in
/-- The api-key regex, run at the `apiKey` token of the target line,
matches exactly 38 characters (via both alternation branches),
whatever follows the line. -/
theorem c5_run_at (B' : List Char) :
    Rx.Reg.run Security.apiKeyReg (c5Suffix ++ B') = [38, 38] := by
  have hapi : "api".data = ['a','p','i'] := by decide
  have hkey : "key".data = ['k','e','y'] := by decide
  have hapikey : "apikey".data = ['a','p','i','k','e','y'] := by decide
  have hr2 : List.range 2 = [0, 1] := by decide
  have hrp : List.range' 20 8 = [20,21,22,23,24,25,26,27] := by decide
  simp +decide [Security.apiKeyReg, Rx.cat, Rx.strCI, Rx.Reg.run, Rx.litMatch,
    Rx.maxRun, c5Suffix, hapi, hkey, hapikey, hr2, hrp]

theorem c5_drop_at (pre post : List (List Char)) :
    (c5Content pre post).drop ((joinLinesNl pre).length + 6)
      = c5Suffix ++ joinNlLines post := by
  rw [c5Content, List.drop_append 6,
    List.drop_append_of_le_length (by decide : 6 ≤ targetLine.data.length),
    c5Suffix_eq]

theorem c5_matcher_at (pre post : List (List Char)) :
    Rx.matcherOf Security.apiKeyReg (c5Content pre post)
      ((joinLinesNl pre).length + 6) = some 38 := by
  rw [Rx.matcherOf, c5_drop_at, c5_run_at]
  rfl

theorem get?_drop_add (l : List Char) (a m : Nat) :
    (l.drop a).get? m = l.get? (a + m) := by
  rw [List.get?_eq_getElem?, List.get?_eq_getElem?, List.getElem?_drop]

/-- What a match of the key alternation
`(api[_-]?key|apikey)` (case-insensitive) forces: length 6 or 7, first
character `a`/`A`, last character `y`/`Y`. -/
theorem c5_key_facts (s : List Char) (a1 : Nat)
    (h : a1 ∈ (Rx.Reg.alt
        (Rx.cat [Rx.strCI "api", Rx.Reg.opt Security.sepChar, Rx.strCI "key"])
        (Rx.strCI "apikey")).run s) :
    (a1 = 6 ∨ a1 = 7)
    ∧ (∃ c, s.get? 0 = some c ∧ JsStr.lowerChar c = 'a')
    ∧ (∃ c, s.get? (a1 - 1) = some c ∧ JsStr.lowerChar c = 'y') := by
  rcases Rx.mem_run_alt h with h1 | h2
  · have e : Rx.cat [Rx.strCI "api", Rx.Reg.opt Security.sepChar, Rx.strCI "key"]
        = Rx.Reg.seq (Rx.strCI "api")
            (Rx.Reg.seq (Rx.Reg.opt Security.sepChar) (Rx.strCI "key")) := rfl
    rw [e] at h1
    obtain ⟨a, b, ha, hb, rfl⟩ := Rx.mem_run_seq h1
    obtain ⟨o, k, ho, hk, rfl⟩ := Rx.mem_run_seq hb
    obtain ⟨ha', hlmA⟩ := Rx.mem_run_lit ha
    obtain ⟨hk', hlmK⟩ := Rx.mem_run_lit hk
    rw [List.length_map, show "api".data.length = 3 from by decide] at ha'
    rw [List.length_map, show "key".data.length = 3 from by decide] at hk'
    have hole := Rx.mem_run_opt ho
    subst ha'
    subst hk'
    refine ⟨by omega, ?_, ?_⟩
    · obtain ⟨c, q, hc, hq, hqc⟩ := Rx.litMatch_sat hlmA 0 (by rw [List.length_map]; decide)
      refine ⟨c, hc, ?_⟩
      rw [List.get?_eq_getElem?, List.getElem?_map] at hq
      have : ("api".data[0]?).map
          (fun c => fun d => decide (JsStr.lowerChar d = JsStr.lowerChar c)) = some q := hq
      rw [show "api".data[0]? = some 'a' by decide] at this
      simp only [Option.map_some'] at this
      rw [← Option.some.inj this] at hqc
      have hv : JsStr.lowerChar c = JsStr.lowerChar 'a' := of_decide_eq_true hqc
      rw [show JsStr.lowerChar 'a' = 'a' from by decide] at hv
      exact hv
    · obtain ⟨c, q, hc, hq, hqc⟩ := Rx.litMatch_sat hlmK 2 (by rw [List.length_map]; decide)
      rw [List.drop_drop, get?_drop_add] at hc
      refine ⟨c, ?_, ?_⟩
      · rw [show 3 + (o + 3) - 1 = 3 + o + 2 by omega]
        exact hc
      · rw [List.get?_eq_getElem?, List.getElem?_map] at hq
        have : ("key".data[2]?).map
            (fun c => fun d => decide (JsStr.lowerChar d = JsStr.lowerChar c)) = some q := hq
        rw [show "key".data[2]? = some 'y' by decide] at this
        simp only [Option.map_some'] at this
        rw [← Option.some.inj this] at hqc
        have hv : JsStr.lowerChar c = JsStr.lowerChar 'y' := of_decide_eq_true hqc
        rw [show JsStr.lowerChar 'y' = 'y' from by decide] at hv
        exact hv
  · obtain ⟨ha', hlm⟩ := Rx.mem_run_lit h2
    rw [List.length_map, show "apikey".data.length = 6 from by decide] at ha'
    subst ha'
    refine ⟨Or.inl rfl, ?_, ?_⟩
    · obtain ⟨c, q, hc, hq, hqc⟩ := Rx.litMatch_sat hlm 0 (by rw [List.length_map]; decide)
      refine ⟨c, hc, ?_⟩
      rw [List.get?_eq_getElem?, List.getElem?_map] at hq
      have : ("apikey".data[0]?).map
          (fun c => fun d => decide (JsStr.lowerChar d = JsStr.lowerChar c)) = some q := hq
      rw [show "apikey".data[0]? = some 'a' by decide] at this
      simp only [Option.map_some'] at this
      rw [← Option.some.inj this] at hqc
      have hv : JsStr.lowerChar c = JsStr.lowerChar 'a' := of_decide_eq_true hqc
      rw [show JsStr.lowerChar 'a' = 'a' from by decide] at hv
      exact hv
    · obtain ⟨c, q, hc, hq, hqc⟩ := Rx.litMatch_sat hlm 5 (by rw [List.length_map]; decide)
      refine ⟨c, hc, ?_⟩
      rw [List.get?_eq_getElem?, List.getElem?_map] at hq
      have : ("apikey".data[5]?).map
          (fun c => fun d => decide (JsStr.lowerChar d = JsStr.lowerChar c)) = some q := hq
      rw [show "apikey".data[5]? = some 'y' by decide] at this
      simp only [Option.map_some'] at this
      rw [← Option.some.inj this] at hqc
      have hv : JsStr.lowerChar c = JsStr.lowerChar 'y' := of_decide_eq_true hqc
      rw [show JsStr.lowerChar 'y' = 'y' from by decide] at hv
      exact hv

theorem head?_eq_get?_zero (l : List Char) : l.head? = l.get? 0 := by
  cases l <;> rfl

theorem head?_some_mem {l : List Nat} {a : Nat} (h : l.head? = some a) :
    a ∈ l := by
  cases l with
  | nil => cases h
  | cons b t =>
    simp only [List.head?] at h
    rw [← Option.some.inj h]
    exact List.mem_cons_self _ _

/-- Reading the content at an absolute position inside the target line
pins the character. -/
theorem c5_char_is (pre post : List (List Char)) (p i : Nat) (c e : Char)
    (hi : i < 45) (hp : p = (joinLinesNl pre).length + i)
    (he : targetLine.data.get? i = some e)
    (hc : (c5Content pre post).get? p = some c) : c = e := by
  rw [hp, c5_char_at pre post i hi, he] at hc
  exact (Option.some.inj hc).symm

namespace Rx

/-- If position `s` matches and every earlier matching position's
recorded match ends at or before `s`, the exec loop reaches `s` and
records the match found there. -/
theorem execAll_hits (f : Nat → Option Nat) (n s l : Nat)
    (hf : f s = some l) (hsn : s ≤ n)
    (hover : ∀ j l', f j = some l' → j < s → j + max l' 1 ≤ s) :
    ∀ start, start ≤ s → (s, l) ∈ execAll f n start := by
  suffices H : ∀ fuel start, n + 1 - start = fuel → start ≤ s →
      (s, l) ∈ execAll f n start from fun start hs => H _ start rfl hs
  intro fuel
  induction fuel using Nat.strong_induction_on with
  | _ fuel ih =>
    intro start hfs hss
    rw [execAll, dif_pos (le_trans hss hsn)]
    rcases Nat.eq_or_lt_of_le hss with heq | hlt
    · subst heq
      rw [hf]
      exact List.mem_cons_self _ _
    · cases hfst : f start with
      | none =>
        exact ih (n + 1 - (start + 1)) (by omega) (start + 1) rfl (by omega)
      | some l0 =>
        have hle := hover start l0 hfst hlt
        exact List.mem_cons_of_mem _
          (ih (n + 1 - (start + max l0 1)) (by omega) (start + max l0 1) rfl
            (by omega))

end Rx

/-- `joinLinesNl` of a nonempty list ends with a newline. -/
theorem joinLinesNl_last (pre : List (List Char)) (h : pre ≠ []) :
    ∃ l', joinLinesNl pre = l' ++ ['\n'] := by
  induction pre with
  | nil => exact absurd rfl h
  | cons l ps ih =>
    cases ps with
    | nil => exact ⟨l, rfl⟩
    | cons p ps' =>
      obtain ⟨l', e⟩ := ih (by simp)
      refine ⟨l ++ '\n' :: l', ?_⟩
      rw [joinLinesNl, e]
      simp

/-- The character just before the target line is a newline. -/
theorem c5_nl_before (pre post : List (List Char))
    (h : 1 ≤ (joinLinesNl pre).length) :
    (c5Content pre post).get? ((joinLinesNl pre).length - 1) = some '\n' := by
  have hne : pre ≠ [] := by
    intro he
    rw [he] at h
    simp [joinLinesNl] at h
  obtain ⟨l', e⟩ := joinLinesNl_last pre hne
  have hlen : (joinLinesNl pre).length = l'.length + 1 := by
    rw [e]
    simp
  rw [c5Content, List.get?_eq_getElem?, List.getElem?_append_left (by omega),
    hlen, e, show l'.length + 1 - 1 = l'.length from rfl,
    List.getElem?_append_right (le_refl _)]
  simp

/-- Reading the content at a position equal to the newline before the
target line pins the character to a newline. -/
theorem c5_char_nl (pre post : List (List Char)) (p : Nat) (c : Char)
    (hp : p = (joinLinesNl pre).length - 1)
    (h1 : 1 ≤ (joinLinesNl pre).length)
    (hc : (c5Content pre post).get? p = some c) : c = '\n' := by
  rw [hp, c5_nl_before pre post h1] at hc
  exact (Option.some.inj hc).symm

/-- No character of the target line's `const ` prefix lowercases to
`a`: the api-key alternation cannot start inside it. -/
theorem c5_no_a_head (pre post : List (List Char)) (j : Nat) (c : Char)
    (hA : (joinLinesNl pre).length ≤ j)
    (hj : j < (joinLinesNl pre).length + 6)
    (hc : (c5Content pre post).get? j = some c) :
    JsStr.lowerChar c ≠ 'a' := by
  have hj' : j = (joinLinesNl pre).length + (j - (joinLinesNl pre).length) := by
    omega
  rw [hj', c5_char_at pre post _ (by omega)] at hc
  have hmask : ∀ i, i < 6 →
      (targetLine.data.map (fun d => decide (JsStr.lowerChar d = 'a'))).get? i
        = some false := by decide
  have hm := hmask (j - (joinLinesNl pre).length) (by omega)
  rw [List.get?_eq_getElem?, List.getElem?_map, ← List.get?_eq_getElem?, hc] at hm
  simp only [Option.map_some'] at hm
  exact of_decide_eq_false (Option.some.inj hm)

/-- Any api-key-regex match starting before the target line's `apiKey`
token ends at or before it: the pattern's quoted-string section cannot
cross a newline, its key alternation cannot start on `const `, and the
whitespace runs cannot bridge the target line's non-space characters,
so a match from an earlier line lies entirely before the target line.
Hence the exec loop never jumps over the token's own match. -/
theorem c5_no_overlap (pre post : List (List Char)) (j lm : Nat)
    (h : Rx.matcherOf Security.apiKeyReg (c5Content pre post) j = some lm)
    (hj : j < (joinLinesNl pre).length + 6) :
    j + max lm 1 ≤ (joinLinesNl pre).length + 6 := by
  have e : Security.apiKeyReg
      = Rx.Reg.seq (Rx.Reg.alt
          (Rx.cat [Rx.strCI "api", Rx.Reg.opt Security.sepChar, Rx.strCI "key"])
          (Rx.strCI "apikey"))
        (Rx.Reg.seq (Rx.Reg.star Rx.wsChar)
          (Rx.Reg.seq (Rx.Reg.cls Security.colonEq)
            (Rx.Reg.seq (Rx.Reg.star Rx.wsChar)
              (Rx.Reg.seq (Rx.Reg.cls Security.quote2)
                (Rx.Reg.seq (Rx.Reg.rep 20 Security.keyChar)
                  (Rx.Reg.cls Security.quote2)))))) := rfl
  rw [Rx.matcherOf] at h
  have hmem := head?_some_mem h
  rw [e] at hmem
  obtain ⟨a1, b1, ha1, hb1, rfl⟩ := Rx.mem_run_seq hmem
  obtain ⟨w1, b2, hw1, hb2, rfl⟩ := Rx.mem_run_seq hb1
  obtain ⟨e1, b3, he1, hb3, rfl⟩ := Rx.mem_run_seq hb2
  obtain ⟨he1e, c1, hc1, hcol1⟩ := Rx.mem_run_cls he1
  subst he1e
  obtain ⟨w2, b4, hw2, hb4, rfl⟩ := Rx.mem_run_seq hb3
  obtain ⟨e2, b5, he2, hb5, rfl⟩ := Rx.mem_run_seq hb4
  obtain ⟨he2e, cq1, hcq1, hq1⟩ := Rx.mem_run_cls he2
  subst he2e
  obtain ⟨r, b6, hr, hb6, rfl⟩ := Rx.mem_run_seq hb5
  obtain ⟨hb6e, cq2, hcq2, hq2⟩ := Rx.mem_run_cls hb6
  obtain ⟨h67, ⟨cA, hcA, hlA⟩, ⟨cY, hcY, hlY⟩⟩ :=
    c5_key_facts ((c5Content pre post).drop j) a1 ha1
  simp only [head?_eq_get?_zero, get?_drop_add] at hc1 hcq1 hcq2
  simp only [get?_drop_add] at hcA hcY
  have ha16 : 6 ≤ a1 := by rcases h67 with h6 | h7 <;> omega
  have ha17 : a1 ≤ 7 := by rcases h67 with h6 | h7 <;> omega
  by_cases hjA : (joinLinesNl pre).length ≤ j
  · exact absurd hlA (c5_no_a_head pre post j cA hjA hj (by simpa using hcA))
  have hq1pos := c5_quote_pos pre post _ cq1 hcq1 hq1
  have hq2pos := c5_quote_pos pre post _ cq2 hcq2 hq2
  have hr20 : 20 ≤ r := (Rx.mem_run_rep hr).1
  rcases hq2pos with h2a | h2
  · omega
  · exfalso
    have hP2ge : (joinLinesNl pre).length + 15
        ≤ j + (a1 + (w1 + (1 + (w2 + (1 + (r + 0)))))) := by
      rcases h2 with hx | hx | hx <;> omega
    rcases hq1pos with h1a | h1b | h1c | h1d
    · have hQ1ne : j + (a1 + (w1 + (1 + (w2 + 0))))
          ≠ (joinLinesNl pre).length - 1 := by
        intro he'
        have hce : cq1 = '\n' := c5_char_nl pre post _ cq1 he' (by omega) hcq1
        rw [hce] at hq1
        exact absurd hq1 (by decide)
      obtain ⟨cm, hcm, hkc⟩ := Rx.run_rep_sat hr
        ((joinLinesNl pre).length - 1
          - (j + (a1 + (w1 + (1 + (w2 + 0)))) + 1)) (by omega)
      simp only [get?_drop_add] at hcm
      have hcme : cm = '\n' :=
        c5_char_nl pre post _ cm (by omega) (by omega) hcm
      rw [hcme] at hkc
      exact absurd hkc (by decide)
    · have hpc : j + (a1 + (w1 + 0)) = (joinLinesNl pre).length + 13 := by
        by_contra hne'
        rcases Nat.lt_or_ge (j + (a1 + (w1 + 0)))
            ((joinLinesNl pre).length + 13) with hlt | hge
        · obtain ⟨cm, hcm, hws⟩ := Rx.run_star_sat hw2
            ((joinLinesNl pre).length + 13 - (j + (a1 + (w1 + 0)) + 1))
            (by omega)
          simp only [get?_drop_add] at hcm
          have hcme : cm = '=' :=
            c5_char_is pre post _ 13 cm '=' (by omega) (by omega) (by decide) hcm
          rw [hcme] at hws
          exact absurd hws (by decide)
        · have hc1e : c1 = ' ' :=
            c5_char_is pre post _ 14 c1 ' ' (by omega) (by omega) (by decide) hc1
          rw [hc1e] at hcol1
          exact absurd hcol1 (by decide)
      have hja : j + a1 = (joinLinesNl pre).length + 12 := by
        rcases Nat.lt_or_ge (j + a1) ((joinLinesNl pre).length + 12) with hlt | hge
        · exfalso
          obtain ⟨cm, hcm, hws⟩ := Rx.run_star_sat hw1
            ((joinLinesNl pre).length + 11 - (j + a1)) (by omega)
          simp only [get?_drop_add] at hcm
          have hcme : cm = 'y' :=
            c5_char_is pre post _ 11 cm 'y' (by omega) (by omega) (by decide) hcm
          rw [hcme] at hws
          exact absurd hws (by decide)
        · rcases Nat.eq_or_lt_of_le hge with heq | hgt
          · omega
          · exfalso
            have hcYe : cY = ' ' :=
              c5_char_is pre post _ 12 cY ' ' (by omega) (by omega) (by decide) hcY
            rw [hcYe] at hlY
            exact absurd hlY (by decide)
      omega
    · obtain ⟨cm, hcm, hkc⟩ := Rx.run_rep_sat hr 0 (by omega)
      simp only [get?_drop_add] at hcm
      have hcme : cm = ';' :=
        c5_char_is pre post _ 44 cm ';' (by omega) (by omega) (by decide) hcm
      rw [hcme] at hkc
      exact absurd hkc (by decide)
    · rcases Nat.lt_trichotomy (j + (a1 + (w1 + 0)))
          ((joinLinesNl pre).length + 44) with hlt | heq | hgt
      · obtain ⟨cm, hcm, hws⟩ := Rx.run_star_sat hw2
          ((joinLinesNl pre).length + 44 - (j + (a1 + (w1 + 0)) + 1)) (by omega)
        simp only [get?_drop_add] at hcm
        have hcme : cm = ';' :=
          c5_char_is pre post _ 44 cm ';' (by omega) (by omega) (by decide) hcm
        rw [hcme] at hws
        exact absurd hws (by decide)
      · have hc1e : c1 = ';' :=
          c5_char_is pre post _ 44 c1 ';' (by omega) (by omega) (by decide) hc1
        rw [hc1e] at hcol1
        exact absurd hcol1 (by decide)
      · obtain ⟨cm, hcm, hws⟩ := Rx.run_star_sat hw1
          ((joinLinesNl pre).length + 44 - (j + a1)) (by omega)
        simp only [get?_drop_add] at hcm
        have hcme : cm = ';' :=
          c5_char_is pre post _ 44 cm ';' (by omega) (by omega) (by decide) hcm
        rw [hcme] at hws
        exact absurd hws (by decide)

/-- C5 (confirmed): for every file whose extension is in the
`CODE_EXTENSIONS` allow-list and whose content contains the line
`const apiKey = "sk-aaaaaaaaaaaaaaaaaaaaaaaa";` (arbitrary newline-free
lines before and after it), `scanFile` produces a finding with type
"Hardcoded Secret", severity "critical", and line equal to the target
line's 1-based position `pre.length + 1` in the file. -/
theorem C5_hardcoded_secret (path : String) (pre post : List (List Char))
    (hext : JsStr.extOf path ∈ Security.CODE_EXTENSIONS)
    (hpre : ∀ l ∈ pre, '\n' ∉ l) (hpost : ∀ l ∈ post, '\n' ∉ l) :
    ∃ f ∈ Security.scanFile path (String.mk (c5Content pre post)),
      f.type = "Hardcoded Secret" ∧ f.severity = "critical"
        ∧ f.line = pre.length + 1 := by
  have hne : String.mk (c5Content pre post) ≠ "" := by
    intro heq
    have hdata : c5Content pre post = [] := congrArg String.data heq
    rw [c5Content] at hdata
    have h1 := (List.append_eq_nil.1 hdata).2
    exact absurd (List.append_eq_nil.1 h1).1 (by decide)
  have hlen : (joinLinesNl pre).length + 6 ≤ (c5Content pre post).length := by
    rw [c5Content, List.length_append, List.length_append]
    have h45 : targetLine.data.length = 45 := by decide
    omega
  have hmemE : ((joinLinesNl pre).length + 6, 38) ∈
      Rx.execAll (Rx.matcherOf Security.apiKeyReg (c5Content pre post))
        (c5Content pre post).length 0 :=
    Rx.execAll_hits _ _ _ _ (c5_matcher_at pre post) hlen
      (fun j l' hm hjs => c5_no_overlap pre post j l' hm hjs) 0 (Nat.zero_le _)
  have hfl : Security.findLineNumber (pre ++ targetLine.data :: post)
      ((joinLinesNl pre).length + 6) = pre.length + 1 := by
    rw [Security.findLineNumber]
    have hgo := findLineGo_target post pre 0 0
    rw [Nat.zero_add, Nat.zero_add] at hgo
    exact hgo
  unfold Security.scanFile
  rw [if_neg hne, if_neg (by simp [hext])]
  refine ⟨_, List.mem_flatMap.mpr
    ⟨Security.SECURITY_PATTERNS.head (by
        rw [Security.SECURITY_PATTERNS]; exact List.cons_ne_nil _ _),
      List.head_mem _, List.mem_map_of_mem _ hmemE⟩, rfl, rfl, ?_⟩
  show Security.findLineNumber
      (JsStr.splitNl (String.mk (c5Content pre post)).data)
      ((joinLinesNl pre).length + 6) = pre.length + 1
  rw [show (String.mk (c5Content pre post)).data = c5Content pre post from rfl,
    splitNl_c5Content pre post hpre hpost]
  exact hfl

/-- Witness for C5: the file `app.js` with one line before the target
line yields a critical Hardcoded Secret finding at line 2. -/
theorem C5_hardcoded_secret_witness :
    (JsStr.extOf "app.js" ∈ Security.CODE_EXTENSIONS
      ∧ (∀ l ∈ [['a']], '\n' ∉ l)
      ∧ (∀ l ∈ ([] : List (List Char)), '\n' ∉ l))
    ∧ ∃ f ∈ Security.scanFile "app.js" (String.mk (c5Content [['a']] [])),
        f.type = "Hardcoded Secret" ∧ f.severity = "critical"
          ∧ f.line = [['a']].length + 1 :=
  ⟨⟨by decide, by decide, by decide⟩,
    C5_hardcoded_secret "app.js" [['a']] [] (by decide) (by decide) (by decide)⟩
